import Mathlib

/-!
Shallow embedding of the `memory_set` crate of the `axmm_crates` repository
(files `src/memory_set/src/{set.rs, area.rs, backend.rs}`), together with
theorems checking the crate's specification.

Modelling conventions:
* Addresses, sizes and flags are `Nat`; `usize` overflow is explicit at
  `W = 2 ^ 64` (`checkedAdd`, `wrapAdd`, `wrapSub`).
* `BTreeMap` is a key-sorted association list; the helpers `btInsert`,
  `btRemove`, `btLastLt`, `btFirstGe`, ... mirror the `BTreeMap` calls used by
  the source (`insert`, `remove`, `range(..k).last()`, `range(k..).next()`).
* The page table is an opaque type `PT` threaded through every operation; the
  backend returns the possibly-modified page table (Rust `&mut`).
* Fallible operations return `Res σ`: `ok`/`err` carry the possibly partially
  modified state (Rust mutates in place), `panicked` models a Rust panic
  (`unwrap`, `assert!`).
* The RAII build is modelled: areas carry a `frames` table (values are opaque
  `Nat` identifiers standing for `FrameTrackerRef`s).
-/

namespace MemSet

/-- The `usize` wrap-around bound: addresses and sizes are below `2 ^ 64`. -/
def W : Nat := 2 ^ 64

/-- `usize::checked_add`. -/
def checkedAdd (a b : Nat) : Option Nat :=
  if a + b < W then some (a + b) else none

/-- `usize` wrapping addition (`wrapping_add`). -/
def wrapAdd (a b : Nat) : Nat := (a + b) % W

/-- `usize` wrapping subtraction (`wrapping_sub`); for `a b < W` this is the
two's-complement difference `(a + W - b) % W`. -/
def wrapSub (a b : Nat) : Nat := (a + (W - b % W)) % W

/-- `MemoryAddr::is_aligned_4k`. -/
def aligned4k (a : Nat) : Bool := a % 4096 == 0

/-- Modelled from the spec: `AddrRange` of the `memory_addr` crate (its
`addr/range` sources are not under `src/`); a half-open range `[start, stop)`
(`stop` models the source field `end`, a Lean keyword). -/
structure AddrRange where
  start : Nat
  stop : Nat
deriving Repr, DecidableEq

/-- Modelled from the spec: `is_empty()` iff `start == end`. -/
def AddrRange.isEmpty (r : AddrRange) : Bool := r.start == r.stop

/-- Modelled from the spec: `contains(addr)` of a half-open range. -/
def AddrRange.containsA (r : AddrRange) (a : Nat) : Bool :=
  decide (r.start ≤ a) && decide (a < r.stop)

/-- Modelled from the spec: `overlaps(other)` of half-open ranges. -/
def AddrRange.overlapsR (r o : AddrRange) : Bool :=
  decide (r.start < o.stop) && decide (o.start < r.stop)

/-- Modelled from the spec: `contained_in(other)` of half-open ranges. -/
def AddrRange.contained_in (r o : AddrRange) : Bool :=
  decide (o.start ≤ r.start) && decide (r.stop ≤ o.stop)

/-- Modelled from the spec: `AddrRange::try_from_start_size`; `none` when
`start + size` overflows `usize`. -/
def AddrRange.try_from_start_size (start size : Nat) : Option AddrRange :=
  match checkedAdd start size with
  | some e => some ⟨start, e⟩
  | none => none

/-- Modelled from the spec: `AddrRange::from_start_size` (the source panics on
overflow; theorems keep `start + size < W` in scope where it matters). -/
def AddrRange.from_start_size (start size : Nat) : AddrRange :=
  ⟨start, start + size⟩

/-- `AddrRange::size`. -/
def AddrRange.size (r : AddrRange) : Nat := r.stop - r.start

/-- The error type `MappingError` of `memory_set`. -/
inductive MappingError where
  | invalidParam
  | alreadyExists
  | badState
deriving Repr, DecidableEq

/-- Result of a fallible operation. `ok`/`err` carry the (possibly partially
modified) state, mirroring Rust's mutation in place; `panicked` models a Rust
panic (`unwrap`, failed `assert!`). -/
inductive Res (σ : Type u) where
  | ok : σ → Res σ
  | err : MappingError → σ → Res σ
  | panicked : Res σ
deriving Repr

/-- The `MappingBackend` trait (`backend.rs`): each operation threads the page
table (Rust `&mut`); `mapFn` returns `none` on failure (`Err(())`) and
otherwise the newly installed RAII frames keyed by page address. -/
structure MappingBackend (PT : Type) where
  mapFn : Nat → Nat → Nat → PT → Option (List (Nat × Nat)) × PT
  unmapFn : Nat → Nat → PT → Bool × PT
  protectFn : Nat → Nat → Nat → PT → Bool × PT

/-! ### The `BTreeMap` model: key-sorted association lists -/

/-- `BTreeMap::insert`: returns the updated list and the replaced value.
On a key-sorted list this places the new pair at its sorted position. -/
def btInsert {α : Type u} (k : Nat) (v : α) : List (Nat × α) → List (Nat × α) × Option α
  | [] => ([(k, v)], none)
  | p :: t =>
    if k < p.1 then ((k, v) :: p :: t, none)
    else if k = p.1 then ((k, v) :: t, some p.2)
    else
      let r := btInsert k v t
      (p :: r.1, r.2)

/-- `BTreeMap::remove`: returns the updated list and the removed value. -/
def btRemove {α : Type u} (k : Nat) : List (Nat × α) → List (Nat × α) × Option α
  | [] => ([], none)
  | p :: t =>
    if p.1 = k then (t, some p.2)
    else
      let r := btRemove k t
      (p :: r.1, r.2)

/-- `BTreeMap::get`. -/
def btGet {α : Type u} (k : Nat) : List (Nat × α) → Option α
  | [] => none
  | p :: t => if p.1 = k then some p.2 else btGet k t

/-- In-place update of the value stored at key `k` (Rust `&mut` access through
`range_mut`/`get_mut`; the key itself is untouched). -/
def btSet {α : Type u} (k : Nat) (v : α) : List (Nat × α) → List (Nat × α)
  | [] => []
  | p :: t => if p.1 = k then (p.1, v) :: t else p :: btSet k v t

/-- `map.range(..k).last()`: the last entry (in key order) with key `< k`. -/
def btLastLt {α : Type u} (k : Nat) : List (Nat × α) → Option (Nat × α)
  | [] => none
  | p :: t =>
    if p.1 < k then
      some (match btLastLt k t with
        | some q => q
        | none => p)
    else btLastLt k t

/-- `map.range(k..).next()`: the first entry (in key order) with key `≥ k`. -/
def btFirstGe {α : Type u} (k : Nat) : List (Nat × α) → Option (Nat × α)
  | [] => none
  | p :: t => if k ≤ p.1 then some p else btFirstGe k t

/-- `map.range(k..)` as a list (on a key-sorted list this is the tail of
entries with key `≥ k`, in order). -/
def btRangeFrom {α : Type u} (k : Nat) (l : List (Nat × α)) : List (Nat × α) :=
  l.filter (fun p => decide (k ≤ p.1))

/-- `BTreeMap::extend` / `append`: insert every pair, later pairs overwriting
earlier ones at equal keys. -/
def btExtend {α : Type u} (l adds : List (Nat × α)) : List (Nat × α) :=
  adds.foldl (fun acc p => (btInsert p.1 p.2 acc).1) l

/-- `BTreeMap::split_off(&k)` keyed partition: entries with key `< k` stay,
entries with key `≥ k` move out. -/
def btSplitOff {α : Type u} (k : Nat) (l : List (Nat × α)) :
    List (Nat × α) × List (Nat × α) :=
  (l.filter (fun p => decide (p.1 < k)), l.filter (fun p => decide (k ≤ p.1)))

/-! ### `MemoryArea` (`area.rs`) -/

/-- `MemoryArea` (RAII build): a virtual-address range, the RAII frame table,
the flags and the per-area backend. -/
structure MemoryArea (PT : Type) where
  va_range : AddrRange
  frames : List (Nat × Nat)
  flags : Nat
  backend : MappingBackend PT

namespace MemoryArea

variable {PT : Type}

/-- `MemoryArea::new` (frames default to an empty table when `None`). -/
def new (start size : Nat) (frame_alloced : Option (List (Nat × Nat)))
    (flags : Nat) (backend : MappingBackend PT) : MemoryArea PT :=
  { va_range := AddrRange.from_start_size start size
    frames := frame_alloced.getD []
    flags := flags
    backend := backend }

/-- `MemoryArea::start`. -/
def start (a : MemoryArea PT) : Nat := a.va_range.start

/-- `MemoryArea::end` (Lean keyword, hence `stop`). -/
def stop (a : MemoryArea PT) : Nat := a.va_range.stop

/-- `MemoryArea::size`. -/
def size (a : MemoryArea PT) : Nat := a.va_range.size

/-- `MemoryArea::set_flags`. -/
def set_flags (a : MemoryArea PT) (new_flags : Nat) : MemoryArea PT :=
  { a with flags := new_flags }

/-- `retain_frames_in_range`: keep only frames whose key is inside the
current range. -/
def retain_frames_in_range (a : MemoryArea PT) : MemoryArea PT :=
  { a with frames := a.frames.filter (fun p => a.va_range.containsA p.1) }

/-- `MemoryArea::map_area`: backend-map the whole range; on success extend the
frame table with what the backend returned, on failure `BadState`. -/
def map_area (a : MemoryArea PT) (pt : PT) (flags : Option Nat) :
    Res (MemoryArea PT × PT) :=
  let flag := flags.getD a.flags
  match a.backend.mapFn a.start a.size flag pt with
  | (none, pt') => .err .badState (a, pt')
  | (some frame_refs, pt') =>
    .ok ({ a with frames := btExtend a.frames frame_refs }, pt')

/-- `MemoryArea::unmap_area`: backend-unmap the whole range; on success clear
the frame table, on failure `BadState`. -/
def unmap_area (a : MemoryArea PT) (pt : PT) : Res (MemoryArea PT × PT) :=
  match a.backend.unmapFn a.start a.size pt with
  | (false, pt') => .err .badState (a, pt')
  | (true, pt') => .ok ({ a with frames := [] }, pt')

/-- `MemoryArea::protect_area`: invoke the backend's `protect` on the whole
range. The source discards the backend's boolean result and always returns
`Ok(())`. -/
def protect_area (a : MemoryArea PT) (new_flags : Nat) (pt : PT) :
    Res (MemoryArea PT × PT) :=
  let r := a.backend.protectFn a.start a.size new_flags pt
  .ok (a, r.2)

/-- `MemoryArea::shrink_left`: `assert!(new_size > 0 && new_size < size)`;
backend-unmap the cut-off prefix, then advance the start (wrapping add) and
retain the surviving frames. The range is untouched when the backend fails. -/
def shrink_left (a : MemoryArea PT) (new_size : Nat) (pt : PT) :
    Res (MemoryArea PT × PT) :=
  if 0 < new_size ∧ new_size < a.size then
    let unmap_size := a.size - new_size
    match a.backend.unmapFn a.start unmap_size pt with
    | (false, pt') => .err .badState (a, pt')
    | (true, pt') =>
      let a' := { a with va_range := ⟨wrapAdd a.va_range.start unmap_size, a.va_range.stop⟩ }
      .ok (a'.retain_frames_in_range, pt')
  else .panicked

/-- `MemoryArea::shrink_right`: `assert!(new_size > 0 && new_size < size)`;
backend-unmap the cut-off suffix, then retract the end (wrapping sub) and
retain the surviving frames. The range is untouched when the backend fails. -/
def shrink_right (a : MemoryArea PT) (new_size : Nat) (pt : PT) :
    Res (MemoryArea PT × PT) :=
  if 0 < new_size ∧ new_size < a.size then
    let unmap_size := a.size - new_size
    let unmap_start := wrapAdd a.start new_size
    match a.backend.unmapFn unmap_start unmap_size pt with
    | (false, pt') => .err .badState (a, pt')
    | (true, pt') =>
      let a' := { a with va_range := ⟨a.va_range.start, wrapSub a.va_range.stop unmap_size⟩ }
      .ok (a'.retain_frames_in_range, pt')
  else .panicked

/-- `MemoryArea::extend_left` (privileged): `assert!(new_size > 0 && new_size >
size)`; backend-map the added prefix, append the returned frames and move the
start left. On backend failure the area is returned unchanged (`BadState`). -/
def extend_left (a : MemoryArea PT) (new_size : Nat) (pt : PT) :
    Res (MemoryArea PT × PT) :=
  if 0 < new_size ∧ a.size < new_size then
    let map_size := new_size - a.size
    let map_start := wrapSub a.start map_size
    match a.backend.mapFn map_start map_size a.flags pt with
    | (none, pt') => .err .badState (a, pt')
    | (some new_frames, pt') =>
      .ok ({ a with frames := btExtend a.frames new_frames
                    va_range := ⟨map_start, a.va_range.stop⟩ }, pt')
  else .panicked

/-- `MemoryArea::extend_right` (privileged): `assert!(new_size > 0 && new_size
> size)`; backend-map the added suffix, append the returned frames and move the
end right (wrapping add). On backend failure the area is returned unchanged
(`BadState`). -/
def extend_right (a : MemoryArea PT) (new_size : Nat) (pt : PT) :
    Res (MemoryArea PT × PT) :=
  if 0 < new_size ∧ a.size < new_size then
    let map_size := new_size - a.size
    let map_start := wrapAdd a.start a.size
    match a.backend.mapFn map_start map_size a.flags pt with
    | (none, pt') => .err .badState (a, pt')
    | (some new_frames, pt') =>
      .ok ({ a with frames := btExtend a.frames new_frames
                    va_range := ⟨a.va_range.start, wrapAdd a.va_range.stop map_size⟩ }, pt')
  else .panicked

/-- `MemoryArea::split`: if `start < pos < end`, truncate to `[start, pos)`,
move the frames at keys `≥ pos` into the returned right half (same flags,
cloned backend); otherwise `none` (and the area is unmodified). -/
def split (a : MemoryArea PT) (pos : Nat) : Option (MemoryArea PT × MemoryArea PT) :=
  if a.start < pos ∧ pos < a.stop then
    let parts := btSplitOff pos a.frames
    some ({ a with va_range := ⟨a.va_range.start, pos⟩, frames := parts.1 },
      MemoryArea.new pos (a.stop - pos) (some parts.2) a.flags a.backend)
  else none

/-- `MemoryArea::insert_frame` (RAII): `debug_assert!` 4K alignment, then
insert, returning the replaced frame. -/
def insert_frame (a : MemoryArea PT) (vaddr frame : Nat) :
    Res (MemoryArea PT × Option Nat) :=
  if aligned4k vaddr then
    let r := btInsert vaddr frame a.frames
    .ok ({ a with frames := r.1 }, r.2)
  else .panicked

end MemoryArea

/-! ### `MemorySet` (`set.rs`) -/

/-- `MemorySet`: areas keyed by start address in a `BTreeMap`. -/
structure MemorySet (PT : Type) where
  areas : List (Nat × MemoryArea PT)

namespace MemorySet

variable {PT : Type}

/-- `MemorySet::new`. -/
def new : MemorySet PT := ⟨[]⟩

/-- `MemorySet::len`. -/
def len (s : MemorySet PT) : Nat := s.areas.length

/-- `MemorySet::overlaps`: inspect only the last area before `range.start` and
the first area at or after it. -/
def overlaps (s : MemorySet PT) (range : AddrRange) : Bool :=
  (match btLastLt range.start s.areas with
    | some p => p.2.va_range.overlapsR range
    | none => false) ||
  (match btFirstGe range.start s.areas with
    | some p => p.2.va_range.overlapsR range
    | none => false)

/-- `MemorySet::find`: the last area with key `≤ addr`, if it contains
`addr`. -/
def find (s : MemorySet PT) (addr : Nat) : Option (Nat × MemoryArea PT) :=
  match btLastLt (addr + 1) s.areas with
  | some p => if p.2.va_range.containsA addr then some p else none
  | none => none

/-- `MemorySet::find_free_area`: the scanning loop over `areas.range(last_end..)`. -/
def ffaLoop (size lim : Nat) : Nat → List (Nat × MemoryArea PT) → Option Nat
  | last_end, [] =>
    match checkedAdd last_end size with
    | some e => if e ≤ lim then some last_end else none
    | none => none
  | last_end, p :: t =>
    match checkedAdd last_end size with
    | some e => if e ≤ p.1 then some last_end else ffaLoop size lim p.2.stop t
    | none => ffaLoop size lim p.2.stop t

/-- `MemorySet::find_free_area(hint, size, limit)`: first-fit scan starting at
`max(hint, limit.start)`, jumping over the area containing the scan point. -/
def find_free_area (s : MemorySet PT) (hint size : Nat) (limit : AddrRange) :
    Option Nat :=
  let le0 := max hint limit.start
  let le1 := match btLastLt le0 s.areas with
    | some p => max le0 p.2.stop
    | none => le0
  ffaLoop size limit.stop le1 (btRangeFrom le1 s.areas)

/-- `MemorySet::insert(area, unmap_overlap)`: reject empty ranges (the source
checks twice), reject overlap unless `unmap_overlap`, then insert asserting the
key was free. Does not touch the page table. -/
def insert (s : MemorySet PT) (area : MemoryArea PT) (unmap_overlap : Bool) :
    Res (MemorySet PT) :=
  if area.va_range.isEmpty then .err .invalidParam s
  else if area.va_range.isEmpty then .err .invalidParam s
  else if s.overlaps area.va_range && !unmap_overlap then .err .alreadyExists s
  else
    let r := btInsert area.start area s.areas
    match r.2 with
    | none => .ok ⟨r.1⟩
    | some _ => .panicked

/-- `MemorySet::delete(vaddr)`: remove the area keyed at `vaddr` without
unmapping. -/
def delete (s : MemorySet PT) (vaddr : Nat) : MemorySet PT :=
  ⟨(btRemove vaddr s.areas).1⟩

/-- Phase 1 of `MemorySet::unmap`: `retain`, unmapping (with `unwrap`) and
dropping every area contained in the range. -/
def unmapPhase1 (range : AddrRange) (pt : PT) :
    List (Nat × MemoryArea PT) → Res (List (Nat × MemoryArea PT) × PT)
  | [] => .ok ([], pt)
  | p :: t =>
    if p.2.va_range.contained_in range then
      match p.2.unmap_area pt with
      | .ok (_, pt') => unmapPhase1 range pt' t
      | _ => .panicked
    else
      match unmapPhase1 range pt t with
      | .ok (l, pt') => .ok (p :: l, pt')
      | .err e (l, pt') => .err e (p :: l, pt')
      | .panicked => .panicked

/-- Phase 3 of `MemorySet::unmap`: shrink-left the area intersecting the right
boundary and re-key it at `end`. -/
def unmapPhase3 (start e : Nat) (l : List (Nat × MemoryArea PT)) (pt : PT) :
    Res (MemorySet PT × PT) :=
  match btFirstGe start l with
  | none => .ok (⟨l⟩, pt)
  | some (after_start, after) =>
    if after_start < e then
      let l' := (btRemove after_start l).1
      match after.shrink_left (after.stop - e) pt with
      | .ok (a', pt') =>
        if a'.start = e then .ok (⟨(btInsert e a' l').1⟩, pt') else .panicked
      | .err er (_, pt') => .err er (⟨l'⟩, pt')
      | .panicked => .panicked
    else .ok (⟨l⟩, pt)

/-- `MemorySet::unmap(start, size)`: phase 1 removes contained areas, phase 2
shrinks (or splits) the area intersecting the left boundary, phase 3 shrinks
the area intersecting the right boundary. -/
def unmap (s : MemorySet PT) (start size : Nat) (pt : PT) :
    Res (MemorySet PT × PT) :=
  match AddrRange.try_from_start_size start size with
  | none => .err .invalidParam (s, pt)
  | some range =>
    if range.isEmpty then .ok (s, pt)
    else
      let e := range.stop
      match unmapPhase1 range pt s.areas with
      | .panicked => .panicked
      | .err er (l, pt') => .err er (⟨l⟩, pt')
      | .ok (l1, pt1) =>
        match btLastLt start l1 with
        | none => unmapPhase3 start e l1 pt1
        | some (before_start, before) =>
          if before.stop > start then
            if before.stop ≤ e then
              match before.shrink_right (start - before_start) pt1 with
              | .ok (b', pt2) => unmapPhase3 start e (btSet before_start b' l1) pt2
              | .err er (b', pt2) => .err er (⟨btSet before_start b' l1⟩, pt2)
              | .panicked => .panicked
            else
              match before.split e with
              | none => .panicked
              | some (bleft, bright) =>
                match bleft.shrink_right (start - before_start) pt1 with
                | .ok (b', pt2) =>
                  if bright.start = e then
                    unmapPhase3 start e
                      ((btInsert e bright (btSet before_start b' l1)).1) pt2
                  else .panicked
                | .err er (b', pt2) => .err er (⟨btSet before_start b' l1⟩, pt2)
                | .panicked => .panicked
          else unmapPhase3 start e l1 pt1

/-- `MemorySet::map(area, page_table, unmap_overlap, overwrite_flags)`: reject
empty areas; on overlap, first unmap the new range when `unmap_overlap`, else
`AlreadyExists`; then `map_area` and insert, asserting the key was free. -/
def map (s : MemorySet PT) (area : MemoryArea PT) (pt : PT)
    (unmap_overlap : Bool) (overwrite_flags : Option Nat) :
    Res (MemorySet PT × PT) :=
  if area.va_range.isEmpty then .err .invalidParam (s, pt)
  else
    let step2 : MemorySet PT → PT → Res (MemorySet PT × PT) := fun s1 pt1 =>
      match area.map_area pt1 overwrite_flags with
      | .ok (a', pt2) =>
        let r := btInsert a'.start a' s1.areas
        match r.2 with
        | none => .ok (⟨r.1⟩, pt2)
        | some _ => .panicked
      | .err er (_, pt2) => .err er (s1, pt2)
      | .panicked => .panicked
    if s.overlaps area.va_range then
      if unmap_overlap then
        match s.unmap area.start area.size pt with
        | .ok (s1, pt1) => step2 s1 pt1
        | .err er (s1, pt1) => .err er (s1, pt1)
        | .panicked => .panicked
      else .err .alreadyExists (s, pt)
    else step2 s pt

/-- `MemorySet::adjust_area(area_addr, start, end)`: look up the area by key
(`unwrap`), assert 4K alignment of the new bounds, reject `start ≥ end`, then
apply the minimal extend/shrink on each side. The map key is never updated. -/
def adjust_area (s : MemorySet PT) (area_addr start e : Nat) (pt : PT) :
    Res (MemorySet PT × PT) :=
  match btGet area_addr s.areas with
  | none => .panicked
  | some area =>
    if aligned4k start && aligned4k e then
      if start ≥ e then .err .invalidParam (s, pt)
      else
        let current_start := area.start
        let current_end := area.stop
        let leftStep : Res (MemoryArea PT × PT) :=
          if start ≠ current_start then
            if start < current_start then
              area.extend_left (current_end - start) pt
            else area.shrink_left (current_end - start) pt
          else .ok (area, pt)
        match leftStep with
        | .panicked => .panicked
        | .err er (a1, pt1) => .err er (⟨btSet area_addr a1 s.areas⟩, pt1)
        | .ok (a1, pt1) =>
          let rightStep : Res (MemoryArea PT × PT) :=
            if e ≠ current_end then
              if e > current_end then
                a1.extend_right (e - current_start) pt1
              else a1.shrink_right (e - current_start) pt1
            else .ok (a1, pt1)
          match rightStep with
          | .panicked => .panicked
          | .err er (a2, pt2) => .err er (⟨btSet area_addr a2 s.areas⟩, pt2)
          | .ok (a2, pt2) => .ok (⟨btSet area_addr a2 s.areas⟩, pt2)
    else .panicked

/-- The iteration of `MemorySet::clear`: `unmap_area` every area in key order,
stopping at the first failure. -/
def clearLoop (pt : PT) :
    List (Nat × MemoryArea PT) → Res (List (Nat × MemoryArea PT) × PT)
  | [] => .ok ([], pt)
  | p :: t =>
    match p.2.unmap_area pt with
    | .ok (a', pt') =>
      match clearLoop pt' t with
      | .ok (l, pt'') => .ok ((p.1, a') :: l, pt'')
      | .err e (l, pt'') => .err e ((p.1, a') :: l, pt'')
      | .panicked => .panicked
    | .err e (a', pt') => .err e ((p.1, a') :: t, pt')
    | .panicked => .panicked

/-- `MemorySet::clear`: unmap every area, then empty the map (only on full
success; an error leaves the partially unmapped map in place). -/
def clear (s : MemorySet PT) (pt : PT) : Res (MemorySet PT × PT) :=
  match clearLoop pt s.areas with
  | .ok (_, pt') => .ok (⟨[]⟩, pt')
  | .err e (l, pt') => .err e (⟨l⟩, pt')
  | .panicked => .panicked

/-- The iteration of `MemorySet::protect` over the areas, classifying each by
its overlap with `[start, e)` and staging new areas in `to_insert`; returns the
(in-place updated) list, the staged insertions in push order, and the page
table. -/
def protectLoop (f : Nat → Option Nat) (start e : Nat) (pt : PT) :
    List (Nat × MemoryArea PT) →
    Res (List (Nat × MemoryArea PT) × List (Nat × MemoryArea PT) × PT)
  | [] => .ok ([], [], pt)
  | (k, area) :: rest =>
    match f area.flags with
    | none =>
      match protectLoop f start e pt rest with
      | .ok (l, ins, pt') => .ok ((k, area) :: l, ins, pt')
      | .err er (l, ins, pt') => .err er ((k, area) :: l, ins, pt')
      | .panicked => .panicked
    | some new_flags =>
      if k ≥ e then .ok ((k, area) :: rest, [], pt)
      else if area.stop ≤ start then
        match protectLoop f start e pt rest with
        | .ok (l, ins, pt') => .ok ((k, area) :: l, ins, pt')
        | .err er (l, ins, pt') => .err er ((k, area) :: l, ins, pt')
        | .panicked => .panicked
      else if k ≥ start ∧ area.stop ≤ e then
        match area.protect_area new_flags pt with
        | .ok (a1, pt1) =>
          let a2 := a1.set_flags new_flags
          match protectLoop f start e pt1 rest with
          | .ok (l, ins, pt') => .ok ((k, a2) :: l, ins, pt')
          | .err er (l, ins, pt') => .err er ((k, a2) :: l, ins, pt')
          | .panicked => .panicked
        | .err er (a1, pt1) => .err er ((k, a1) :: rest, [], pt1)
        | .panicked => .panicked
      else if k < start ∧ area.stop > e then
        match area.split e with
        | none => .panicked
        | some (aL, right_part) =>
          match aL.split start with
          | none => .panicked
          | some (aLL, middle0) =>
            match middle0.protect_area new_flags pt with
            | .ok (m1, pt1) =>
              let middle := m1.set_flags new_flags
              match protectLoop f start e pt1 rest with
              | .ok (l, ins, pt') =>
                .ok ((k, aLL) :: l,
                  (right_part.start, right_part) :: (middle.start, middle) :: ins, pt')
              | .err er (l, ins, pt') =>
                .err er ((k, aLL) :: l,
                  (right_part.start, right_part) :: (middle.start, middle) :: ins, pt')
              | .panicked => .panicked
            | .err er (m1, pt1) =>
              .err er ((k, aLL) :: rest,
                [(right_part.start, right_part)], pt1)
            | .panicked => .panicked
      else if area.stop > e then
        match area.split e with
        | none => .panicked
        | some (aL, right_part) =>
          match aL.protect_area new_flags pt with
          | .ok (a1, pt1) =>
            let a2 := a1.set_flags new_flags
            match protectLoop f start e pt1 rest with
            | .ok (l, ins, pt') =>
              .ok ((k, a2) :: l, (right_part.start, right_part) :: ins, pt')
            | .err er (l, ins, pt') =>
              .err er ((k, a2) :: l, (right_part.start, right_part) :: ins, pt')
            | .panicked => .panicked
          | .err er (a1, pt1) => .err er ((k, a1) :: rest, [], pt1)
          | .panicked => .panicked
      else
        match area.split start with
        | none => .panicked
        | some (aL, right0) =>
          match right0.protect_area new_flags pt with
          | .ok (r1, pt1) =>
            let right_part := r1.set_flags new_flags
            match protectLoop f start e pt1 rest with
            | .ok (l, ins, pt') =>
              .ok ((k, aL) :: l, (right_part.start, right_part) :: ins, pt')
            | .err er (l, ins, pt') =>
              .err er ((k, aL) :: l, (right_part.start, right_part) :: ins, pt')
            | .panicked => .panicked
          | .err er (r1, pt1) => .err er ((k, aL) :: rest, [], pt1)
          | .panicked => .panicked

/-- `MemorySet::protect(start, size, update_flags)`: `checked_add` guard, the
classification loop, then `areas.extend(to_insert)`. -/
def protect (s : MemorySet PT) (start size : Nat) (f : Nat → Option Nat)
    (pt : PT) : Res (MemorySet PT × PT) :=
  match checkedAdd start size with
  | none => .err .invalidParam (s, pt)
  | some e =>
    match protectLoop f start e pt s.areas with
    | .ok (l, ins, pt') => .ok (⟨btExtend l ins⟩, pt')
    | .err er (l, ins, pt') => .err er (⟨btExtend l ins⟩, pt')
    | .panicked => .panicked

end MemorySet

/-! ### Invariants -/

/-- Well-formedness of one map entry: the key equals the area's start, the
area is non-empty, and its end is a representable `usize`. -/
def EntryWF {PT : Type} (p : Nat × MemoryArea PT) : Prop :=
  p.1 = p.2.va_range.start ∧ p.2.va_range.start < p.2.va_range.stop ∧
    p.2.va_range.stop < W

/-- The `MemorySet` invariant: keys strictly sorted, areas pairwise
non-overlapping in key order (`prev.end ≤ next.start`), and every entry
well-formed (key = start, non-empty, bounded). -/
def SetWF {PT : Type} (s : MemorySet PT) : Prop :=
  s.areas.Pairwise (fun p q => p.1 < q.1) ∧
  s.areas.Pairwise (fun p q => p.2.va_range.stop ≤ q.2.va_range.start) ∧
  ∀ p ∈ s.areas, EntryWF p

/-- The non-overlap chain relation between entries of the area map. -/
def Disj {PT : Type} (p q : Nat × MemoryArea PT) : Prop :=
  p.2.va_range.stop ≤ q.2.va_range.start

/-- Range inclusion between entries: `p`'s area lies inside `q`'s area. -/
def RangeSub {PT : Type} (p q : Nat × MemoryArea PT) : Prop :=
  q.2.va_range.start ≤ p.2.va_range.start ∧
    p.2.va_range.stop ≤ q.2.va_range.stop

/-- The RAII frame-table invariant of one area: every key is 4K-aligned and
lies in `[start, end)`. -/
def FramesWF {PT : Type} (a : MemoryArea PT) : Prop :=
  ∀ p ∈ a.frames, aligned4k p.1 = true ∧
    a.va_range.start ≤ p.1 ∧ p.1 < a.va_range.stop

/-- Bounds on an area's range (automatic for Rust `usize` addresses). -/
def AreaWF {PT : Type} (a : MemoryArea PT) : Prop :=
  a.va_range.start ≤ a.va_range.stop ∧ a.va_range.stop < W

/-- The backend contract of the spec: frames returned by `map` are 4K-aligned
page addresses covering only the requested sub-range. -/
def GoodBackend {PT : Type} (bk : MappingBackend PT) : Prop :=
  ∀ st sz fl pt fr pt', bk.mapFn st sz fl pt = (some fr, pt') →
    ∀ p ∈ fr, aligned4k p.1 = true ∧ st ≤ p.1 ∧ p.1 < st + sz

/-- Area states reachable by the public area operations listed in the spec,
starting from `MemoryArea::new` with an empty frame table. Side conditions:
the backend satisfies the spec's contract, extensions do not wrap around the
address space, and `insert_frame` targets an address inside the area. -/
inductive AreaReach {PT : Type} : MemoryArea PT → Prop where
  | new_ (start size flags : Nat) (bk : MappingBackend PT) :
      GoodBackend bk → start + size < W →
      AreaReach (MemoryArea.new start size none flags bk)
  | map_area_ (a a' : MemoryArea PT) (pt pt' : PT) (fl : Option Nat) :
      AreaReach a → a.map_area pt fl = .ok (a', pt') → AreaReach a'
  | unmap_area_ (a a' : MemoryArea PT) (pt pt' : PT) :
      AreaReach a → a.unmap_area pt = .ok (a', pt') → AreaReach a'
  | shrink_left_ (a a' : MemoryArea PT) (n : Nat) (pt pt' : PT) :
      AreaReach a → a.shrink_left n pt = .ok (a', pt') → AreaReach a'
  | shrink_right_ (a a' : MemoryArea PT) (n : Nat) (pt pt' : PT) :
      AreaReach a → a.shrink_right n pt = .ok (a', pt') → AreaReach a'
  | extend_left_ (a a' : MemoryArea PT) (n : Nat) (pt pt' : PT) :
      AreaReach a → n - a.size ≤ a.va_range.start →
      a.extend_left n pt = .ok (a', pt') → AreaReach a'
  | extend_right_ (a a' : MemoryArea PT) (n : Nat) (pt pt' : PT) :
      AreaReach a → a.va_range.stop + (n - a.size) < W →
      a.extend_right n pt = .ok (a', pt') → AreaReach a'
  | split_l (a al ar : MemoryArea PT) (pos : Nat) :
      AreaReach a → a.split pos = some (al, ar) → AreaReach al
  | split_r (a al ar : MemoryArea PT) (pos : Nat) :
      AreaReach a → a.split pos = some (al, ar) → AreaReach ar
  | insert_frame_ (a a' : MemoryArea PT) (va fr : Nat) (old : Option Nat) :
      AreaReach a → a.va_range.containsA va = true →
      a.insert_frame va fr = .ok (a', old) → AreaReach a'

/-- Memory sets reachable from the empty set by successful public mutations.
Side conditions (the amendments forced by the counterexamples): inserted and
mapped areas have `usize` bounds; `insert` with `unmap_overlap = true` is only
used on a non-overlapping area (the spec's documented caller obligation);
`adjust_area` keeps the area's start fixed and its new range does not overlap
any other area (the spec's documented caller obligation for extensions). -/
inductive Reaches {PT : Type} : MemorySet PT → Prop where
  | empty : Reaches (MemorySet.new : MemorySet PT)
  | insert_ (s : MemorySet PT) (area : MemoryArea PT) (uo : Bool)
      (s' : MemorySet PT) :
      Reaches s → area.va_range.start ≤ area.va_range.stop →
      area.va_range.stop < W →
      (uo = true → s.overlaps area.va_range = false) →
      s.insert area uo = .ok s' → Reaches s'
  | map_ (s : MemorySet PT) (area : MemoryArea PT) (pt pt' : PT) (uo : Bool)
      (of : Option Nat) (s' : MemorySet PT) :
      Reaches s → area.va_range.start ≤ area.va_range.stop →
      area.va_range.stop < W →
      s.map area pt uo of = .ok (s', pt') → Reaches s'
  | unmap_ (s : MemorySet PT) (st sz : Nat) (pt pt' : PT) (s' : MemorySet PT) :
      Reaches s → s.unmap st sz pt = .ok (s', pt') → Reaches s'
  | protect_ (s : MemorySet PT) (st sz : Nat) (f : Nat → Option Nat)
      (pt pt' : PT) (s' : MemorySet PT) :
      Reaches s → s.protect st sz f pt = .ok (s', pt') → Reaches s'
  | adjust_ (s : MemorySet PT) (area_addr e : Nat) (pt pt' : PT)
      (area : MemoryArea PT) (s' : MemorySet PT) :
      Reaches s → btGet area_addr s.areas = some area → e < W →
      (∀ p ∈ s.areas, p.1 ≠ area_addr →
        AddrRange.overlapsR ⟨area.start, e⟩ p.2.va_range = false) →
      s.adjust_area area_addr area.start e pt = .ok (s', pt') → Reaches s'
  | clear_ (s : MemorySet PT) (pt pt' : PT) (s' : MemorySet PT) :
      Reaches s → s.clear pt = .ok (s', pt') → Reaches s'
  | delete_ (s : MemorySet PT) (va : Nat) :
      Reaches s → Reaches (s.delete va)

/-! ### Concrete instances for counterexamples and witnesses -/

/-- A backend call, recorded by the logging backend. -/
inductive BCall where
  | bmap : Nat → Nat → Nat → BCall
  | bunmap : Nat → Nat → BCall
  | bprotect : Nat → Nat → Nat → BCall
deriving Repr, DecidableEq

/-- A backend that always succeeds, installs no frames, and logs every call
(the page table is the call log). -/
def logBackend : MappingBackend (List BCall) where
  mapFn := fun st sz fl pt => (some [], pt ++ [BCall.bmap st sz fl])
  unmapFn := fun st sz pt => (true, pt ++ [BCall.bunmap st sz])
  protectFn := fun st sz fl pt => (true, pt ++ [BCall.bprotect st sz fl])

/-- A backend that always succeeds and does nothing (unit page table). -/
def noopBackend : MappingBackend Unit where
  mapFn := fun _ _ _ pt => (some [], pt)
  unmapFn := fun _ _ pt => (true, pt)
  protectFn := fun _ _ _ pt => (true, pt)

/-- A backend that always fails (unit page table). -/
def failingBackend : MappingBackend Unit where
  mapFn := fun _ _ _ pt => (none, pt)
  unmapFn := fun _ _ pt => (false, pt)
  protectFn := fun _ _ _ pt => (false, pt)

/-! ## Helper lemmas -/

theorem wrapAdd_eq {x y : Nat} (h : x + y < W) : wrapAdd x y = x + y :=
  Nat.mod_eq_of_lt h

theorem wrapSub_eq {x y : Nat} (hyx : y ≤ x) (hx : x < W) : wrapSub x y = x - y := by
  unfold wrapSub
  have hy : y < W := lt_of_le_of_lt hyx hx
  rw [Nat.mod_eq_of_lt hy]
  have h1 : x + (W - y) = W + (x - y) := by omega
  rw [h1, Nat.add_mod_left, Nat.mod_eq_of_lt (by omega)]

/-! ## Claim theorems: area-level error handling -/

/-- C5 (code_bug evidence): `protect_area` discards the backend's boolean
result and always returns `Ok(())`; in particular `MemorySet::protect` on an
area whose backend's `protect` reports failure still succeeds, contradicting
the spec's "area-level primitives surface backend failures verbatim". -/
theorem protect_area_discards_backend_failure :
    (∀ (PT : Type) (a : MemoryArea PT) (nf : Nat) (pt : PT),
      a.protect_area nf pt =
        .ok (a, (a.backend.protectFn a.start a.size nf pt).2)) ∧
    (⟨[(0x1000, MemoryArea.new 0x1000 0x1000 none 3 failingBackend)]⟩ :
        MemorySet Unit).protect 0x1000 0x1000 (fun _ => some 5) () =
      .ok (⟨[(0x1000,
        (MemoryArea.new 0x1000 0x1000 none 3 failingBackend).set_flags 5)]⟩, ()) :=
  ⟨fun _ _ _ _ => rfl, rfl⟩

/-- C8: when the backend's `unmap` reports failure, `shrink_left` and
`shrink_right` return `BadState` and leave the area (range and frame table)
exactly as it was; the range is mutated only after the backend succeeds. -/
theorem shrink_backend_failure_leaves_area {PT : Type} (a : MemoryArea PT)
    (new_size : Nat) (pt : PT) (h1 : 0 < new_size) (h2 : new_size < a.size) :
    ((a.backend.unmapFn a.start (a.size - new_size) pt).1 = false →
      a.shrink_left new_size pt =
        .err .badState (a, (a.backend.unmapFn a.start (a.size - new_size) pt).2)) ∧
    ((a.backend.unmapFn (wrapAdd a.start new_size) (a.size - new_size) pt).1 = false →
      a.shrink_right new_size pt =
        .err .badState (a,
          (a.backend.unmapFn (wrapAdd a.start new_size) (a.size - new_size) pt).2)) := by
  constructor
  · intro hf
    unfold MemoryArea.shrink_left
    rw [if_pos ⟨h1, h2⟩]
    dsimp only
    split
    · rename_i pt' heq
      rw [heq]
    · rename_i pt' heq
      rw [heq] at hf
      simp at hf
  · intro hf
    unfold MemoryArea.shrink_right
    rw [if_pos ⟨h1, h2⟩]
    dsimp only
    split
    · rename_i pt' heq
      rw [heq]
    · rename_i pt' heq
      rw [heq] at hf
      simp at hf

/-- Witness for C8 at a concrete input. -/
theorem shrink_backend_failure_leaves_area_witness :
    (MemoryArea.new 0x1000 0x2000 none 3 failingBackend).shrink_left 0x1000 () =
        .err .badState (MemoryArea.new 0x1000 0x2000 none 3 failingBackend, ()) ∧
    (MemoryArea.new 0x1000 0x2000 none 3 failingBackend).shrink_right 0x1000 () =
        .err .badState (MemoryArea.new 0x1000 0x2000 none 3 failingBackend, ()) :=
  ⟨(shrink_backend_failure_leaves_area _ 0x1000 () (by decide) (by decide)).1 rfl,
   (shrink_backend_failure_leaves_area _ 0x1000 () (by decide) (by decide)).2 rfl⟩

/-- C10: when the backend's `map` reports failure, `extend_left` and
`extend_right` return `BadState` and leave the area (range and frame table)
exactly as it was before the call. -/
theorem extend_backend_failure_leaves_area {PT : Type} (a : MemoryArea PT)
    (new_size : Nat) (pt : PT) (h2 : a.size < new_size) :
    ((a.backend.mapFn (wrapSub a.start (new_size - a.size)) (new_size - a.size)
        a.flags pt).1 = none →
      a.extend_left new_size pt =
        .err .badState (a, (a.backend.mapFn (wrapSub a.start (new_size - a.size))
          (new_size - a.size) a.flags pt).2)) ∧
    ((a.backend.mapFn (wrapAdd a.start a.size) (new_size - a.size)
        a.flags pt).1 = none →
      a.extend_right new_size pt =
        .err .badState (a, (a.backend.mapFn (wrapAdd a.start a.size)
          (new_size - a.size) a.flags pt).2)) := by
  have h1 : 0 < new_size := lt_of_le_of_lt (Nat.zero_le _) h2
  constructor
  · intro hf
    unfold MemoryArea.extend_left
    rw [if_pos ⟨h1, h2⟩]
    dsimp only
    split
    · rename_i pt' heq
      rw [heq]
    · rename_i pt' heq
      rw [heq] at hf
      simp at hf
  · intro hf
    unfold MemoryArea.extend_right
    rw [if_pos ⟨h1, h2⟩]
    dsimp only
    split
    · rename_i pt' heq
      rw [heq]
    · rename_i pt' heq
      rw [heq] at hf
      simp at hf

/-- Witness for C10 at a concrete input. -/
theorem extend_backend_failure_leaves_area_witness :
    (MemoryArea.new 0x1000 0x1000 none 3 failingBackend).extend_left 0x2000 () =
        .err .badState (MemoryArea.new 0x1000 0x1000 none 3 failingBackend, ()) ∧
    (MemoryArea.new 0x1000 0x1000 none 3 failingBackend).extend_right 0x2000 () =
        .err .badState (MemoryArea.new 0x1000 0x1000 none 3 failingBackend, ()) :=
  ⟨(extend_backend_failure_leaves_area _ 0x2000 () (by decide)).1 rfl,
   (extend_backend_failure_leaves_area _ 0x2000 () (by decide)).2 rfl⟩

/-! ## Equation helpers for area primitives -/

theorem shrink_right_fail_eq {PT : Type} {a : MemoryArea PT} {n u t : Nat}
    {pt : PT} (h1 : 0 < n) (h2 : n < a.size) (hust : wrapAdd a.start n = t)
    (hus : a.size - n = u) (hf : (a.backend.unmapFn t u pt).1 = false) :
    a.shrink_right n pt = .err .badState (a, (a.backend.unmapFn t u pt).2) := by
  unfold MemoryArea.shrink_right
  rw [if_pos ⟨h1, h2⟩]
  dsimp only
  rw [hust, hus]
  rcases hx : a.backend.unmapFn t u pt with ⟨r, p⟩
  rw [hx] at hf
  simp only at hf
  subst hf
  rfl

theorem shrink_right_ok_eq {PT : Type} {a : MemoryArea PT} {n u t m : Nat}
    {pt : PT} (h1 : 0 < n) (h2 : n < a.size) (hust : wrapAdd a.start n = t)
    (hus : a.size - n = u) (hstop : wrapSub a.va_range.stop u = m)
    (ht : (a.backend.unmapFn t u pt).1 = true) :
    a.shrink_right n pt =
      .ok (({ a with va_range := ⟨a.va_range.start, m⟩ } :
        MemoryArea PT).retain_frames_in_range, (a.backend.unmapFn t u pt).2) := by
  unfold MemoryArea.shrink_right
  rw [if_pos ⟨h1, h2⟩]
  dsimp only
  rw [hust, hus, hstop]
  rcases hx : a.backend.unmapFn t u pt with ⟨r, p⟩
  rw [hx] at ht
  simp only at ht
  subst ht
  rfl

theorem shrink_left_fail_eq {PT : Type} {a : MemoryArea PT} {n us : Nat}
    {pt : PT} (h1 : 0 < n) (h2 : n < a.size) (hus : a.size - n = us)
    (hf : (a.backend.unmapFn a.start us pt).1 = false) :
    a.shrink_left n pt = .err .badState (a, (a.backend.unmapFn a.start us pt).2) := by
  unfold MemoryArea.shrink_left
  rw [if_pos ⟨h1, h2⟩]
  dsimp only
  rw [hus]
  rcases hx : a.backend.unmapFn a.start us pt with ⟨r, p⟩
  rw [hx] at hf
  simp only at hf
  subst hf
  rfl

theorem shrink_left_ok_eq {PT : Type} {a : MemoryArea PT} {n us nstart : Nat}
    {pt : PT} (h1 : 0 < n) (h2 : n < a.size) (hus : a.size - n = us)
    (hstart : wrapAdd a.va_range.start us = nstart)
    (ht : (a.backend.unmapFn a.start us pt).1 = true) :
    a.shrink_left n pt =
      .ok (({ a with va_range := ⟨nstart, a.va_range.stop⟩ } :
        MemoryArea PT).retain_frames_in_range, (a.backend.unmapFn a.start us pt).2) := by
  unfold MemoryArea.shrink_left
  rw [if_pos ⟨h1, h2⟩]
  dsimp only
  rw [hus, hstart]
  rcases hx : a.backend.unmapFn a.start us pt with ⟨r, p⟩
  rw [hx] at ht
  simp only at ht
  subst ht
  rfl

theorem split_some_eq {PT : Type} {a : MemoryArea PT} {pos : Nat}
    (h : a.start < pos ∧ pos < a.stop) :
    a.split pos = some
      ({ a with va_range := ⟨a.va_range.start, pos⟩
                frames := a.frames.filter (fun p => decide (p.1 < pos)) },
        ⟨⟨pos, pos + (a.stop - pos)⟩,
          a.frames.filter (fun p => decide (pos ≤ p.1)), a.flags, a.backend⟩) := by
  unfold MemoryArea.split
  rw [if_pos h]
  rfl

/-! ## C7: `protect` with an identity / trivial `update_flags` -/

theorem protectLoop_none_noop {PT : Type} (st e : Nat) (pt : PT)
    (l : List (Nat × MemoryArea PT)) :
    MemorySet.protectLoop (fun _ => none) st e pt l = .ok (l, [], pt) := by
  induction l with
  | nil => rfl
  | cons p t ih =>
    obtain ⟨k, area⟩ := p
    simp only [MemorySet.protectLoop, ih]

/-- C7 counterexample: `protect` with the identity `update_flags`
`fun f => some f` on a range strictly inside a single area splits it into
three areas: the set's structure is not left unchanged. -/
theorem protect_identity_update_splits :
    ((⟨[(0x1000, MemoryArea.new 0x1000 0x4000 none 3 noopBackend)]⟩ :
        MemorySet Unit).protect 0x2000 0x1000 (fun f => some f) () =
      .ok (⟨[(0x1000, MemoryArea.new 0x1000 0x1000 none 3 noopBackend),
             (0x2000, MemoryArea.new 0x2000 0x1000 none 3 noopBackend),
             (0x3000, MemoryArea.new 0x3000 0x2000 none 3 noopBackend)]⟩, ())) ∧
    ¬ ((⟨[(0x1000, MemoryArea.new 0x1000 0x4000 none 3 noopBackend)]⟩ :
        MemorySet Unit).protect 0x2000 0x1000 (fun f => some f) () =
      .ok (⟨[(0x1000, MemoryArea.new 0x1000 0x4000 none 3 noopBackend)]⟩, ())) := by
  refine ⟨rfl, fun h => ?_⟩
  rw [show (⟨[(0x1000, MemoryArea.new 0x1000 0x4000 none 3 noopBackend)]⟩ :
        MemorySet Unit).protect 0x2000 0x1000 (fun f => some f) () =
      .ok (⟨[(0x1000, MemoryArea.new 0x1000 0x1000 none 3 noopBackend),
             (0x2000, MemoryArea.new 0x2000 0x1000 none 3 noopBackend),
             (0x3000, MemoryArea.new 0x3000 0x2000 none 3 noopBackend)]⟩, ()) from rfl] at h
  simp only [Res.ok.injEq, Prod.mk.injEq, MemorySet.mk.injEq, and_true] at h
  simp at h

/-- C7 amended: the structural no-op holds for the `update_flags` function
that always reports "no bit to change" (`fun _ => none`, which is how the
source skips areas); such a `protect` leaves the set and the page table
unchanged and invokes no backend operation. The literal claim — identity in
the sense `fun f => some f` — is refuted by the counterexample. -/
theorem protect_none_update_noop {PT : Type} (s : MemorySet PT) (st sz : Nat)
    (pt : PT) (h : st + sz < W) :
    s.protect st sz (fun _ => none) pt = .ok (s, pt) := by
  unfold MemorySet.protect checkedAdd
  rw [if_pos h]
  dsimp only
  rw [protectLoop_none_noop]
  rfl

/-- Witness for C7's amended theorem at a concrete input. -/
theorem protect_none_update_noop_witness :
    (⟨[(0x1000, MemoryArea.new 0x1000 0x4000 none 3 noopBackend)]⟩ :
        MemorySet Unit).protect 0x2000 0x1000 (fun _ => none) () =
      .ok (⟨[(0x1000, MemoryArea.new 0x1000 0x4000 none 3 noopBackend)]⟩, ()) :=
  protect_none_update_noop _ 0x2000 0x1000 () (by decide)

/-! ## C3: backend failure inside `unmap` -/

/-- C3 counterexample: a backend `unmap` failure while removing an area fully
contained in the unmapped range hits the `unwrap()` in the `retain` closure of
`MemorySet::unmap` and panics instead of returning `BadState`. -/
theorem unmap_contained_failure_panics :
    (⟨[(0x1000, MemoryArea.new 0x1000 0x1000 none 3 failingBackend)]⟩ :
        MemorySet Unit).unmap 0x1000 0x1000 () = .panicked := rfl

/-- C3 amended: a backend failure reported while shrinking the area at the
unmap boundary is returned as `BadState` (shown here for an area straddling
the left boundary of the unmapped range, the set and page table left as the
failing call produced them); a backend failure while removing a fully
contained area panics instead (see the counterexample). -/
theorem unmap_boundary_failure_badstate {PT : Type} (bk : MappingBackend PT)
    (a b st size : Nat) (fr : List (Nat × Nat)) (fl : Nat) (pt : PT)
    (hab : a < st) (h2 : st < b) (h3 : b ≤ st + size) (h4 : st + size < W)
    (hfail : (bk.unmapFn st (b - st) pt).1 = false) :
    (⟨[(a, ⟨⟨a, b⟩, fr, fl, bk⟩)]⟩ : MemorySet PT).unmap st size pt =
      .err .badState (⟨[(a, ⟨⟨a, b⟩, fr, fl, bk⟩)]⟩,
        (bk.unmapFn st (b - st) pt).2) := by
  have hsz : 0 < size := by omega
  unfold MemorySet.unmap AddrRange.try_from_start_size checkedAdd
  rw [if_pos h4]
  dsimp only
  rw [if_neg (by simp [AddrRange.isEmpty]; omega)]
  have hp1 : MemorySet.unmapPhase1 ⟨st, st + size⟩ pt
      [(a, (⟨⟨a, b⟩, fr, fl, bk⟩ : MemoryArea PT))] =
      .ok ([(a, ⟨⟨a, b⟩, fr, fl, bk⟩)], pt) := by
    simp only [MemorySet.unmapPhase1]
    rw [if_neg (by simp [AddrRange.contained_in]; omega)]
  rw [hp1]
  dsimp only
  have hlast : btLastLt st [(a, (⟨⟨a, b⟩, fr, fl, bk⟩ : MemoryArea PT))] =
      some (a, ⟨⟨a, b⟩, fr, fl, bk⟩) := by
    simp only [btLastLt]
    rw [if_pos (show a < st from hab)]
  rw [hlast]
  dsimp only [MemoryArea.stop]
  rw [if_pos (show b > st from h2), if_pos h3]
  rw [shrink_right_fail_eq (n := st - a) (u := b - st) (t := st)
    (by omega) (by simp [MemoryArea.size, AddrRange.size]; omega)
    (by simp [MemoryArea.start]; rw [wrapAdd_eq (by omega)]; omega)
    (by simp [MemoryArea.size, AddrRange.size]; omega) hfail]
  simp [btSet]

/-! ## C2: unmap strictly inside a single area -/

/-- C2 counterexample: with `size = 0` (allowed by the claim's hypotheses
`a < start` and `start + size < b`), `unmap` succeeds as a no-op and leaves
one area, not two. -/
theorem unmap_zero_size_no_split :
    ((⟨[(0x1000, MemoryArea.new 0x1000 0x4000 none 3 noopBackend)]⟩ :
        MemorySet Unit).unmap 0x2000 0 () =
      .ok (⟨[(0x1000, MemoryArea.new 0x1000 0x4000 none 3 noopBackend)]⟩, ())) ∧
    (⟨[(0x1000, MemoryArea.new 0x1000 0x4000 none 3 noopBackend)]⟩ :
      MemorySet Unit).len = 1 :=
  ⟨rfl, rfl⟩

/-- C2 amended (adds `0 < size`): for a single area `[a, b)` and an unmap
range `[st, st+size)` strictly inside it, a successful unmap leaves exactly
the two areas `[a, st)` and `[st+size, b)` with the original flags, and the
backend receives exactly the single call `unmap(st, size)` (the final page
table is exactly the result of that one call). -/
theorem unmap_middle_splits_two {PT : Type} (bk : MappingBackend PT)
    (a b st size : Nat) (fr : List (Nat × Nat)) (fl : Nat) (pt : PT)
    (h1 : a < st) (hsz : 0 < size) (h2 : st + size < b) (h5 : b < W)
    (hok : (bk.unmapFn st size pt).1 = true) :
    (⟨[(a, ⟨⟨a, b⟩, fr, fl, bk⟩)]⟩ : MemorySet PT).unmap st size pt =
      .ok (⟨[(a, ⟨⟨a, st⟩,
              (fr.filter (fun p => decide (p.1 < st + size))).filter
                (fun p => (⟨a, st⟩ : AddrRange).containsA p.1), fl, bk⟩),
            (st + size, ⟨⟨st + size, b⟩,
              fr.filter (fun p => decide (st + size ≤ p.1)), fl, bk⟩)]⟩,
        (bk.unmapFn st size pt).2) := by
  have h4 : st + size < W := by omega
  unfold MemorySet.unmap AddrRange.try_from_start_size checkedAdd
  rw [if_pos h4]
  dsimp only
  rw [if_neg (by simp [AddrRange.isEmpty]; omega)]
  have hp1 : MemorySet.unmapPhase1 ⟨st, st + size⟩ pt
      [(a, (⟨⟨a, b⟩, fr, fl, bk⟩ : MemoryArea PT))] =
      .ok ([(a, ⟨⟨a, b⟩, fr, fl, bk⟩)], pt) := by
    simp only [MemorySet.unmapPhase1]
    rw [if_neg (by simp [AddrRange.contained_in]; omega)]
  rw [hp1]
  dsimp only
  have hlast : btLastLt st [(a, (⟨⟨a, b⟩, fr, fl, bk⟩ : MemoryArea PT))] =
      some (a, ⟨⟨a, b⟩, fr, fl, bk⟩) := by
    simp only [btLastLt]
    rw [if_pos (show a < st from h1)]
  rw [hlast]
  dsimp only [MemoryArea.stop]
  rw [if_pos (show b > st by omega), if_neg (show ¬ b ≤ st + size by omega)]
  rw [split_some_eq (by refine ⟨?_, ?_⟩ <;>
    simp only [MemoryArea.start, MemoryArea.stop] <;> omega)]
  dsimp only
  rw [show st + size + ((⟨⟨a, b⟩, fr, fl, bk⟩ : MemoryArea PT).stop - (st + size)) = b from by
    simp only [MemoryArea.stop]; omega]
  rw [shrink_right_ok_eq (n := st - a) (u := size) (t := st) (m := st)
    (by omega)
    (by dsimp only [MemoryArea.size, AddrRange.size]; omega)
    (by dsimp only [MemoryArea.start]; rw [wrapAdd_eq (by omega)]; omega)
    (by dsimp only [MemoryArea.size, AddrRange.size]; omega)
    (by dsimp only; rw [wrapSub_eq (by omega) (by omega)]; omega)
    hok]
  have c1 : ¬ st + size < a := by omega
  have c2 : ¬ st + size = a := by omega
  have c3 : ¬ st ≤ a := by omega
  have c4 : st ≤ st + size := by omega
  have c5 : ¬ st + size < st + size := by omega
  dsimp only [MemoryArea.start, MemoryArea.retain_frames_in_range,
    AddrRange.containsA]
  rw [if_pos rfl]
  simp only [btSet, btInsert, c1, c2, if_true, if_false, eq_self_iff_true,
    MemorySet.unmapPhase3, btFirstGe, c3, c4, c5, ite_true, ite_false]

/-- Witness for C2's amended theorem: scenario S1 of the spec, with the
logging backend showing the single backend call `unmap(0x2000, 0x2000)`. -/
theorem unmap_middle_splits_two_witness :
    (⟨[(0x1000, (⟨⟨0x1000, 0x5000⟩, [], 3, logBackend⟩ : MemoryArea (List BCall)))]⟩ :
        MemorySet (List BCall)).unmap 0x2000 0x2000 [] =
      .ok (⟨[(0x1000, ⟨⟨0x1000, 0x2000⟩, [], 3, logBackend⟩),
             (0x4000, ⟨⟨0x4000, 0x5000⟩, [], 3, logBackend⟩)]⟩,
        [BCall.bunmap 0x2000 0x2000]) :=
  unmap_middle_splits_two logBackend 0x1000 0x5000 0x2000 0x2000 [] 3 []
    (by decide) (by decide) (by decide) (by decide) rfl

/-- Witness for C3's amended theorem at a concrete input. -/
theorem unmap_boundary_failure_badstate_witness :
    (⟨[(0x1000, (⟨⟨0x1000, 0x3000⟩, [], 3, failingBackend⟩ :
        MemoryArea Unit))]⟩ : MemorySet Unit).unmap 0x2000 0x2000 () =
      .err .badState
        (⟨[(0x1000, ⟨⟨0x1000, 0x3000⟩, [], 3, failingBackend⟩)]⟩, ()) :=
  unmap_boundary_failure_badstate failingBackend 0x1000 0x3000 0x2000 0x2000
    [] 3 () (by decide) (by decide) (by decide) (by decide) rfl

/-! ## C6: protect strictly inside a single area -/

/-- C6: for a set with a single area `[as_, ae)` strictly containing the
protected range `[st, st+size)`, and `update_flags` mapping the area's flags
to `some nf`, a successful `protect` yields exactly three areas — `[as_, st)`
with the original flags, `[st, st+size)` with the new flags, and
`[st+size, ae)` with the original flags — and the page table is exactly the
result of the single backend call `protect(st, size, nf)`. -/
theorem protect_middle_three_areas {PT : Type} (bk : MappingBackend PT)
    (as_ ae st size : Nat) (fr : List (Nat × Nat)) (fl nf : Nat)
    (f : Nat → Option Nat) (pt : PT) (s' : MemorySet PT) (pt' : PT)
    (h1 : as_ < st) (h2 : st + size < ae) (hf : f fl = some nf)
    (hok : (⟨[(as_, ⟨⟨as_, ae⟩, fr, fl, bk⟩)]⟩ : MemorySet PT).protect st size f pt
      = .ok (s', pt')) :
    s'.areas = [(as_, ⟨⟨as_, st⟩,
        (fr.filter (fun p => decide (p.1 < st + size))).filter
          (fun p => decide (p.1 < st)), fl, bk⟩),
      (st, ⟨⟨st, st + size⟩,
        (fr.filter (fun p => decide (p.1 < st + size))).filter
          (fun p => decide (st ≤ p.1)), nf, bk⟩),
      (st + size, ⟨⟨st + size, ae⟩,
        fr.filter (fun p => decide (st + size ≤ p.1)), fl, bk⟩)] ∧
    pt' = (bk.protectFn st size nf pt).2 := by
  rcases Nat.lt_or_ge (st + size) W with hW | hW
  · rcases Nat.eq_zero_or_pos size with h0 | hsz
    · exfalso
      subst h0
      unfold MemorySet.protect checkedAdd at hok
      rw [if_pos (by omega)] at hok
      dsimp only at hok
      simp only [MemorySet.protectLoop, hf, MemoryArea.stop] at hok
      rw [if_neg (show ¬ as_ ≥ st + 0 by omega)] at hok
      rw [if_neg (show ¬ ae ≤ st by omega)] at hok
      rw [if_neg (show ¬ (as_ ≥ st ∧ ae ≤ st + 0) by omega)] at hok
      rw [if_pos (show as_ < st ∧ ae > st + 0 by omega)] at hok
      rw [split_some_eq (by refine ⟨?_, ?_⟩ <;>
        dsimp only [MemoryArea.start, MemoryArea.stop] <;> omega)] at hok
      dsimp only at hok
      have hnone : ∀ (x : MemoryArea PT), x.va_range.stop = st + 0 →
          x.split st = none := by
        intro x hx
        unfold MemoryArea.split
        rw [if_neg (by dsimp only [MemoryArea.start, MemoryArea.stop]; omega)]
      rw [hnone _ rfl] at hok
      exact Res.noConfusion hok
    · unfold MemorySet.protect checkedAdd at hok
      rw [if_pos hW] at hok
      dsimp only at hok
      simp only [MemorySet.protectLoop, hf, MemoryArea.stop] at hok
      rw [if_neg (show ¬ as_ ≥ st + size by omega)] at hok
      rw [if_neg (show ¬ ae ≤ st by omega)] at hok
      rw [if_neg (show ¬ (as_ ≥ st ∧ ae ≤ st + size) by omega)] at hok
      rw [if_pos (show as_ < st ∧ ae > st + size by omega)] at hok
      rw [split_some_eq (by refine ⟨?_, ?_⟩ <;>
        dsimp only [MemoryArea.start, MemoryArea.stop] <;> omega)] at hok
      dsimp only [MemoryArea.stop, MemoryArea.start] at hok
      rw [show st + size + (ae - (st + size)) = ae from by omega] at hok
      rw [split_some_eq (by refine ⟨?_, ?_⟩ <;>
        dsimp only [MemoryArea.start, MemoryArea.stop] <;> omega)] at hok
      dsimp only [MemoryArea.stop, MemoryArea.start,
        MemoryArea.protect_area, MemoryArea.set_flags, MemoryArea.size,
        AddrRange.size] at hok
      rw [show st + (st + size - st) = st + size from by omega] at hok
      rw [show st + size - st = size from by omega] at hok
      simp only [MemorySet.protectLoop, btExtend, List.foldl, btInsert,
        show ¬ st + size < as_ by omega, show ¬ st + size = as_ by omega,
        show ¬ st < as_ by omega, show ¬ st = as_ by omega,
        show st < st + size by omega, if_true, if_false, ite_true,
        ite_false] at hok
      injection hok with h
      injection h with hA hB
      exact ⟨by rw [← hA], hB.symm⟩
  · exfalso
    unfold MemorySet.protect checkedAdd at hok
    rw [if_neg (by omega)] at hok
    exact Res.noConfusion hok

/-- Witness for C6 at the spec's scenario S3 (hex addresses, logging
backend): one area `[0x0, 0x10000)` RW becomes `[0x0,0x4000)` RW,
`[0x4000,0x8000)` RX, `[0x8000,0x10000)` RW. -/
theorem protect_middle_three_areas_witness :
    (⟨[(0x0, (⟨⟨0x0, 0x10000⟩, [], 3, logBackend⟩ :
        MemoryArea (List BCall)))]⟩ : MemorySet (List BCall)).protect
      0x4000 0x4000 (fun _ => some 5) [] =
      .ok (⟨[(0x0, ⟨⟨0x0, 0x4000⟩, [], 3, logBackend⟩),
             (0x4000, ⟨⟨0x4000, 0x8000⟩, [], 5, logBackend⟩),
             (0x8000, ⟨⟨0x8000, 0x10000⟩, [], 3, logBackend⟩)]⟩,
        [BCall.bprotect 0x4000 0x4000 5]) ∧
    (⟨[(0x0, (⟨⟨0x0, 0x10000⟩, [], 3, logBackend⟩ :
        MemoryArea (List BCall)))]⟩ : MemorySet (List BCall)).protect
      0x4000 0x4000 (fun _ => some 5) [] =
      .ok (⟨[(0x0, ⟨⟨0x0, 0x4000⟩, [], 3, logBackend⟩),
             (0x4000, ⟨⟨0x4000, 0x8000⟩, [], 5, logBackend⟩),
             (0x8000, ⟨⟨0x8000, 0x10000⟩, [], 3, logBackend⟩)]⟩,
        (logBackend.protectFn 0x4000 0x4000 5 []).2) := by
  have h := protect_middle_three_areas logBackend 0x0 0x10000 0x4000 0x4000
    [] 3 5 (fun _ => some 5) []
    (⟨[(0x0, ⟨⟨0x0, 0x4000⟩, [], 3, logBackend⟩),
       (0x4000, ⟨⟨0x4000, 0x8000⟩, [], 5, logBackend⟩),
       (0x8000, ⟨⟨0x8000, 0x10000⟩, [], 3, logBackend⟩)]⟩ :
      MemorySet (List BCall))
    [BCall.bprotect 0x4000 0x4000 5]
    (by decide) (by decide) rfl rfl
  exact ⟨rfl, rfl⟩

/-! ## Association-list lemmas -/

theorem btLastLt_mem {α : Type u} {k : Nat} :
    ∀ {l : List (Nat × α)} {p}, btLastLt k l = some p → p ∈ l ∧ p.1 < k := by
  intro l
  induction l with
  | nil => intro p h; exact absurd h (by simp [btLastLt])
  | cons a t ih =>
    intro p h
    simp only [btLastLt] at h
    by_cases ha : a.1 < k
    · rw [if_pos ha] at h
      rcases hrec : btLastLt k t with _ | q
      · rw [hrec] at h
        simp only [Option.some.injEq] at h
        subst h
        exact ⟨List.mem_cons_self _ _, ha⟩
      · rw [hrec] at h
        simp only [Option.some.injEq] at h
        subst h
        obtain ⟨hm, hk⟩ := ih hrec
        exact ⟨List.mem_cons_of_mem _ hm, hk⟩
    · rw [if_neg ha] at h
      obtain ⟨hm, hk⟩ := ih h
      exact ⟨List.mem_cons_of_mem _ hm, hk⟩

theorem btLastLt_none {α : Type u} {k : Nat} :
    ∀ {l : List (Nat × α)}, btLastLt k l = none → ∀ q ∈ l, ¬ q.1 < k := by
  intro l
  induction l with
  | nil => intro _ q hq; cases hq
  | cons a t ih =>
    intro h q hq
    simp only [btLastLt] at h
    by_cases ha : a.1 < k
    · rw [if_pos ha] at h; cases h
    · rw [if_neg ha] at h
      rcases List.mem_cons.mp hq with rfl | hq'
      · exact ha
      · exact ih h q hq'

theorem btLastLt_max {α : Type u} {k : Nat} :
    ∀ {l : List (Nat × α)}, l.Pairwise (fun a b => a.1 < b.1) →
    ∀ {p}, btLastLt k l = some p → ∀ q ∈ l, q.1 < k → q.1 ≤ p.1 := by
  intro l
  induction l with
  | nil => intro _ p h; exact absurd h (by simp [btLastLt])
  | cons a t ih =>
    intro hs p h q hq hqk
    obtain ⟨hhead, htail⟩ := List.pairwise_cons.mp hs
    simp only [btLastLt] at h
    by_cases ha : a.1 < k
    · rw [if_pos ha] at h
      rcases hrec : btLastLt k t with _ | r
      · rw [hrec] at h
        simp only [Option.some.injEq] at h
        subst h
        rcases List.mem_cons.mp hq with rfl | hq'
        · exact le_refl _
        · exact absurd hqk (btLastLt_none hrec q hq')
      · rw [hrec] at h
        simp only [Option.some.injEq] at h
        subst h
        rcases List.mem_cons.mp hq with rfl | hq'
        · exact le_of_lt (hhead _ (btLastLt_mem hrec).1)
        · exact ih htail hrec q hq' hqk
    · rw [if_neg ha] at h
      rcases List.mem_cons.mp hq with rfl | hq'
      · exact absurd hqk ha
      · exact ih htail h q hq' hqk

theorem btFirstGe_mem {α : Type u} {k : Nat} :
    ∀ {l : List (Nat × α)} {p}, btFirstGe k l = some p → p ∈ l ∧ k ≤ p.1 := by
  intro l
  induction l with
  | nil => intro p h; exact absurd h (by simp [btFirstGe])
  | cons a t ih =>
    intro p h
    simp only [btFirstGe] at h
    by_cases ha : k ≤ a.1
    · rw [if_pos ha] at h
      simp only [Option.some.injEq] at h
      subst h
      exact ⟨List.mem_cons_self _ _, ha⟩
    · rw [if_neg ha] at h
      obtain ⟨hm, hk⟩ := ih h
      exact ⟨List.mem_cons_of_mem _ hm, hk⟩

theorem btFirstGe_none {α : Type u} {k : Nat} :
    ∀ {l : List (Nat × α)}, btFirstGe k l = none → ∀ q ∈ l, q.1 < k := by
  intro l
  induction l with
  | nil => intro _ q hq; cases hq
  | cons a t ih =>
    intro h q hq
    simp only [btFirstGe] at h
    by_cases ha : k ≤ a.1
    · rw [if_pos ha] at h; cases h
    · rw [if_neg ha] at h
      rcases List.mem_cons.mp hq with rfl | hq'
      · omega
      · exact ih h q hq'

theorem btFirstGe_min {α : Type u} {k : Nat} :
    ∀ {l : List (Nat × α)}, l.Pairwise (fun a b => a.1 < b.1) →
    ∀ {p}, btFirstGe k l = some p → ∀ q ∈ l, k ≤ q.1 → p.1 ≤ q.1 := by
  intro l
  induction l with
  | nil => intro _ p h; exact absurd h (by simp [btFirstGe])
  | cons a t ih =>
    intro hs p h q hq hqk
    obtain ⟨hhead, htail⟩ := List.pairwise_cons.mp hs
    simp only [btFirstGe] at h
    by_cases ha : k ≤ a.1
    · rw [if_pos ha] at h
      simp only [Option.some.injEq] at h
      subst h
      rcases List.mem_cons.mp hq with rfl | hq'
      · exact le_refl _
      · exact le_of_lt (hhead _ hq')
    · rw [if_neg ha] at h
      rcases List.mem_cons.mp hq with rfl | hq'
      · exact absurd hqk ha
      · exact ih htail h q hq' hqk

theorem keys_inj {α : Type u} :
    ∀ {l : List (Nat × α)}, l.Pairwise (fun a b => a.1 < b.1) →
    ∀ {p q}, p ∈ l → q ∈ l → p.1 = q.1 → p = q := by
  intro l
  induction l with
  | nil => intro _ p q hp; cases hp
  | cons a t ih =>
    intro hs p q hp hq he
    obtain ⟨hhead, htail⟩ := List.pairwise_cons.mp hs
    rcases List.mem_cons.mp hp with rfl | hp' <;>
      rcases List.mem_cons.mp hq with rfl | hq'
    · rfl
    · exact absurd he (by have := hhead _ hq'; omega)
    · exact absurd he (by have := hhead _ hp'; omega)
    · exact ih htail hp' hq' he

theorem pairwise_rel_of_keys {α : Type u} {R : (Nat × α) → (Nat × α) → Prop} :
    ∀ {l : List (Nat × α)}, l.Pairwise R →
    l.Pairwise (fun a b => a.1 < b.1) →
    ∀ {p q}, p ∈ l → q ∈ l → p.1 < q.1 → R p q := by
  intro l
  induction l with
  | nil => intro _ _ p q hp; cases hp
  | cons a t ih =>
    intro hr hs p q hp hq hlt
    obtain ⟨hrhead, hrtail⟩ := List.pairwise_cons.mp hr
    obtain ⟨hshead, hstail⟩ := List.pairwise_cons.mp hs
    rcases List.mem_cons.mp hp with rfl | hp' <;>
      rcases List.mem_cons.mp hq with rfl | hq'
    · omega
    · exact hrhead _ hq'
    · exact absurd hlt (by have := hshead _ hp'; omega)
    · exact ih hrtail hstail hp' hq' hlt

/-! ## C1: `find_free_area` -/

theorem ffaLoop_none_correct {PT : Type} {size lim : Nat} :
    ∀ (l : List (Nat × MemoryArea PT)) (le : Nat),
    l.Pairwise Disj →
    (∀ p ∈ l, EntryWF p) →
    (∀ p ∈ l, le ≤ p.1) →
    MemorySet.ffaLoop size lim le l = none →
    ∀ x, le ≤ x → x + size ≤ lim → lim < W →
    (∀ p ∈ l, AddrRange.overlapsR ⟨x, x + size⟩ p.2.va_range = false) → False := by
  intro l
  induction l with
  | nil =>
    intro le _ _ _ hnone x hle hxl hlim _
    simp only [MemorySet.ffaLoop, checkedAdd] at hnone
    rw [if_pos (show le + size < W by omega)] at hnone
    dsimp only at hnone
    rw [if_pos (show le + size ≤ lim by omega)] at hnone
    cases hnone
  | cons a t ih =>
    intro le hchain hent hlb hnone x hle hxl hlim hov
    obtain ⟨hchead, hctail⟩ := List.pairwise_cons.mp hchain
    obtain ⟨hka, hna, hwa⟩ := hent a (List.mem_cons_self _ _)
    -- x cannot lie below the end of area `a`
    have hxa : a.2.va_range.stop ≤ x := by
      by_contra hxc
      push_neg at hxc
      have ho := hov a (List.mem_cons_self _ _)
      simp only [AddrRange.overlapsR, Bool.and_eq_false_iff,
        decide_eq_false_iff_not, not_lt] at ho
      have hfit : x + size ≤ a.1 := by
        rcases ho with h | h
        · omega
        · omega
      -- then the loop would have returned `some le`
      simp only [MemorySet.ffaLoop, checkedAdd] at hnone
      rw [if_pos (show le + size < W by omega)] at hnone
      dsimp only at hnone
      rw [if_pos (show le + size ≤ a.1 by omega)] at hnone
      cases hnone
    -- the loop advanced to `a.stop`
    have hrec : MemorySet.ffaLoop size lim a.2.va_range.stop t = none := by
      simp only [MemorySet.ffaLoop, checkedAdd] at hnone
      by_cases hw : le + size < W
      · rw [if_pos hw] at hnone
        dsimp only at hnone
        by_cases hfit : le + size ≤ a.1
        · rw [if_pos hfit] at hnone; cases hnone
        · rw [if_neg hfit] at hnone
          simpa [MemoryArea.stop] using hnone
      · rw [if_neg hw] at hnone
        simpa [MemoryArea.stop] using hnone
    exact ih a.2.va_range.stop hctail
      (fun p hp => hent p (List.mem_cons_of_mem _ hp))
      (fun p hp => by
        have := hchead p hp
        have := (hent p (List.mem_cons_of_mem _ hp)).1
        simp only [Disj] at *
        omega)
      hrec x (by omega) hxl hlim
      (fun p hp => hov p (List.mem_cons_of_mem _ hp))

theorem ffaLoop_some_correct {PT : Type} {size lim : Nat} :
    ∀ (l : List (Nat × MemoryArea PT)) (le x : Nat),
    l.Pairwise Disj →
    (∀ p ∈ l, EntryWF p) →
    (∀ p ∈ l, le ≤ p.1) →
    MemorySet.ffaLoop size lim le l = some x →
    le ≤ x ∧ x + size < W ∧
    (∀ p ∈ l, p.2.va_range.stop ≤ x ∨ x + size ≤ p.2.va_range.start) ∧
    (x + size ≤ lim ∨ ∃ p ∈ l, x + size ≤ p.1) := by
  intro l
  induction l with
  | nil =>
    intro le x _ _ _ hsome
    simp only [MemorySet.ffaLoop, checkedAdd] at hsome
    by_cases hw : le + size < W
    · rw [if_pos hw] at hsome
      dsimp only at hsome
      by_cases hfit : le + size ≤ lim
      · rw [if_pos hfit] at hsome
        simp only [Option.some.injEq] at hsome
        subst hsome
        exact ⟨le_refl _, hw, by simp, Or.inl hfit⟩
      · rw [if_neg hfit] at hsome; cases hsome
    · rw [if_neg hw] at hsome; cases hsome
  | cons a t ih =>
    intro le x hchain hent hlb hsome
    obtain ⟨hchead, hctail⟩ := List.pairwise_cons.mp hchain
    obtain ⟨hka, hna, hwa⟩ := hent a (List.mem_cons_self _ _)
    have htail_ent : ∀ p ∈ t, EntryWF p :=
      fun p hp => hent p (List.mem_cons_of_mem _ hp)
    have htail_lb : ∀ p ∈ t, a.2.va_range.stop ≤ p.1 := fun p hp => by
      have := hchead p hp
      have := (htail_ent p hp).1
      simp only [Disj] at *
      omega
    have hlba : le ≤ a.1 := hlb a (List.mem_cons_self _ _)
    simp only [MemorySet.ffaLoop, checkedAdd] at hsome
    by_cases hw : le + size < W
    · rw [if_pos hw] at hsome
      dsimp only at hsome
      by_cases hfit : le + size ≤ a.1
      · rw [if_pos hfit] at hsome
        simp only [Option.some.injEq] at hsome
        subst hsome
        refine ⟨le_refl _, hw, ?_, Or.inr ⟨a, List.mem_cons_self _ _, hfit⟩⟩
        intro p hp
        rcases List.mem_cons.mp hp with rfl | hp'
        · exact Or.inr (by omega)
        · right
          have := htail_lb p hp'
          have := (htail_ent p hp').1
          omega
      · rw [if_neg hfit] at hsome
        simp only [MemoryArea.stop] at hsome
        obtain ⟨h1, h2, h3, h4⟩ := ih a.2.va_range.stop x hctail htail_ent
          htail_lb hsome
        refine ⟨by omega, h2, ?_, ?_⟩
        · intro p hp
          rcases List.mem_cons.mp hp with rfl | hp'
          · exact Or.inl h1
          · exact h3 p hp'
        · rcases h4 with h | ⟨p, hp, hxp⟩
          · exact Or.inl h
          · exact Or.inr ⟨p, List.mem_cons_of_mem _ hp, hxp⟩
    · rw [if_neg hw] at hsome
      simp only [MemoryArea.stop] at hsome
      obtain ⟨h1, h2, h3, h4⟩ := ih a.2.va_range.stop x hctail htail_ent
        htail_lb hsome
      refine ⟨by omega, h2, ?_, ?_⟩
      · intro p hp
        rcases List.mem_cons.mp hp with rfl | hp'
        · exact Or.inl h1
        · exact h3 p hp'
      · rcases h4 with h | ⟨p, hp, hxp⟩
        · exact Or.inl h
        · exact Or.inr ⟨p, List.mem_cons_of_mem _ hp, hxp⟩

/-- C1 counterexample: with an existing area lying beyond `limit.end`,
`find_free_area` returns an address from the in-loop fit check, which never
compares against `limit.end`: the returned range is not contained in
`limit`. -/
theorem find_free_area_escapes_limit :
    (⟨[(0x5000, MemoryArea.new 0x5000 0x1000 none 3 noopBackend)]⟩ :
        MemorySet Unit).find_free_area 0 0x4000 ⟨0, 0x3000⟩ = some 0 ∧
    AddrRange.contained_in ⟨0, 0 + 0x4000⟩ ⟨0, 0x3000⟩ = false :=
  ⟨rfl, by decide⟩

/-- C1 amended: on a well-formed set, if `find_free_area(hint, size, limit)`
returns `x` then `x ≥ max(hint, limit.start)`, `x + size` does not overflow,
`[x, x+size)` overlaps no existing area, and — provided every existing area is
contained in `limit` (this proviso is the amendment; see the counterexample) —
`x + size ≤ limit.end`. If it returns `None` then no `x ≥ max(hint,
limit.start)` with `[x, x+size) ⊆ limit` and overlapping no area exists. -/
theorem find_free_area_correct {PT : Type} (s : MemorySet PT) (hwf : SetWF s)
    (hint size : Nat) (limit : AddrRange) (hlim : limit.stop < W) :
    (∀ x, s.find_free_area hint size limit = some x →
      max hint limit.start ≤ x ∧ x + size < W ∧
      (∀ p ∈ s.areas, AddrRange.overlapsR ⟨x, x + size⟩ p.2.va_range = false) ∧
      ((∀ p ∈ s.areas, p.2.va_range.contained_in limit = true) →
        x + size ≤ limit.stop)) ∧
    (s.find_free_area hint size limit = none →
      ¬ ∃ x, max hint limit.start ≤ x ∧
        AddrRange.contained_in ⟨x, x + size⟩ limit = true ∧
        ∀ p ∈ s.areas, AddrRange.overlapsR ⟨x, x + size⟩ p.2.va_range = false) := by
  obtain ⟨hks, hchain, hent⟩ := hwf
  obtain ⟨le1, hle01, houtside, hjump, heq⟩ :
      ∃ le1, max hint limit.start ≤ le1 ∧
        (∀ p ∈ s.areas, p.1 < le1 → p.2.va_range.stop ≤ le1) ∧
        (∀ x, max hint limit.start ≤ x →
          (∀ p ∈ s.areas, AddrRange.overlapsR ⟨x, x + size⟩ p.2.va_range = false) →
          le1 ≤ x) ∧
        s.find_free_area hint size limit =
          MemorySet.ffaLoop size limit.stop le1 (btRangeFrom le1 s.areas) := by
    rcases hA : btLastLt (max hint limit.start) s.areas with _ | q
    · refine ⟨max hint limit.start, le_refl _, ?_, fun x hx _ => hx, ?_⟩
      · intro p hp hplt
        exact absurd hplt (btLastLt_none hA p hp)
      · simp only [MemorySet.find_free_area, hA]
    · obtain ⟨hqmem, hqlt⟩ := btLastLt_mem hA
      have hkq := (hent q hqmem).1
      have hnq := (hent q hqmem).2.1
      refine ⟨max (max hint limit.start) q.2.va_range.stop, le_max_left _ _,
        ?_, ?_, ?_⟩
      · intro p hp hplt
        by_cases hp0 : p.1 < max hint limit.start
        · have hle := btLastLt_max hks hA p hp hp0
          by_cases hpq : p = q
          · subst hpq; exact le_max_right _ _
          · have hlt : p.1 < q.1 :=
              lt_of_le_of_ne hle (fun h => hpq (keys_inj hks hp hqmem h))
            have hrel := pairwise_rel_of_keys hchain hks hp hqmem hlt
            simp only at hrel
            omega
        · have hqp : q.1 < p.1 := by omega
          have hrel := pairwise_rel_of_keys hchain hks hqmem hp hqp
          have hkp := (hent p hp).1
          simp only at hrel
          omega
      · intro x hx hov
        have ho := hov q hqmem
        simp only [AddrRange.overlapsR, Bool.and_eq_false_iff,
          decide_eq_false_iff_not, not_lt] at ho
        rcases ho with h | h
        · omega
        · omega
      · simp only [MemorySet.find_free_area, hA, MemoryArea.stop]
  have hfil_chain : (btRangeFrom le1 s.areas).Pairwise Disj :=
    List.Pairwise.sublist (List.filter_sublist _) hchain
  have hfil_ent : ∀ p ∈ btRangeFrom le1 s.areas, EntryWF p :=
    fun p hp => hent p (List.mem_filter.mp hp).1
  have hfil_lb : ∀ p ∈ btRangeFrom le1 s.areas, le1 ≤ p.1 := fun p hp => by
    have := (List.mem_filter.mp hp).2
    simpa using this
  constructor
  · intro x hx
    rw [heq] at hx
    obtain ⟨h1, h2, h3, h4⟩ := ffaLoop_some_correct _ le1 x hfil_chain
      hfil_ent hfil_lb hx
    refine ⟨le_trans hle01 h1, h2, ?_, ?_⟩
    · intro p hp
      by_cases hmem : le1 ≤ p.1
      · have hpf : p ∈ btRangeFrom le1 s.areas :=
          List.mem_filter.mpr ⟨hp, by simpa⟩
        have hko := (hfil_ent p hpf).1
        rcases h3 p hpf with h | h <;>
          · simp only [AddrRange.overlapsR, Bool.and_eq_false_iff,
              decide_eq_false_iff_not, not_lt]
            omega
      · have := houtside p hp (by omega)
        simp only [AddrRange.overlapsR, Bool.and_eq_false_iff,
          decide_eq_false_iff_not, not_lt]
        omega
    · intro hcont
      rcases h4 with h | ⟨p, hpf, hxp⟩
      · exact h
      · have hp : p ∈ s.areas := (List.mem_filter.mp hpf).1
        have hc := hcont p hp
        simp only [AddrRange.contained_in, Bool.and_eq_true,
          decide_eq_true_eq] at hc
        have hkp := (hent p hp).1
        have hnp := (hent p hp).2.1
        omega
  · intro hnone hex
    obtain ⟨x, hxge, hxcont, hxov⟩ := hex
    rw [heq] at hnone
    simp only [AddrRange.contained_in, Bool.and_eq_true,
      decide_eq_true_eq] at hxcont
    exact ffaLoop_none_correct _ le1 hfil_chain hfil_ent hfil_lb hnone x
      (hjump x hxge hxov) hxcont.2 hlim
      (fun p hp => hxov p (List.mem_filter.mp hp).1)

/-- Witness for C1's amended theorem at scenario S4 of the spec:
`find_free_area(0x1000, 0x1000, [0, 0x10000))` on areas `[0x1000,0x2000)`,
`[0x3000,0x4000)` returns `0x2000`, which satisfies all four conclusions. -/
theorem find_free_area_correct_witness :
    max 0x1000 0 ≤ 0x2000 ∧ 0x2000 + 0x1000 < W ∧
    (∀ p ∈ (⟨[(0x1000, MemoryArea.new 0x1000 0x1000 none 3 noopBackend),
              (0x3000, MemoryArea.new 0x3000 0x1000 none 3 noopBackend)]⟩ :
        MemorySet Unit).areas,
      AddrRange.overlapsR ⟨0x2000, 0x2000 + 0x1000⟩ p.2.va_range = false) ∧
    ((∀ p ∈ (⟨[(0x1000, MemoryArea.new 0x1000 0x1000 none 3 noopBackend),
              (0x3000, MemoryArea.new 0x3000 0x1000 none 3 noopBackend)]⟩ :
        MemorySet Unit).areas,
      p.2.va_range.contained_in ⟨0, 0x10000⟩ = true) →
      0x2000 + 0x1000 ≤ (⟨0, 0x10000⟩ : AddrRange).stop) :=
  (find_free_area_correct
    (⟨[(0x1000, MemoryArea.new 0x1000 0x1000 none 3 noopBackend),
       (0x3000, MemoryArea.new 0x3000 0x1000 none 3 noopBackend)]⟩ :
      MemorySet Unit)
    (by refine ⟨by decide, by decide, ?_⟩
        norm_num [List.forall_mem_cons, EntryWF, MemoryArea.new,
          AddrRange.from_start_size, W])
    0x1000 0x1000 ⟨0, 0x10000⟩ (by decide)).1 0x2000 rfl

/-! ## C9: the RAII frame-table invariant -/

theorem btInsert_mem_fwd {α : Type u} {k : Nat} {v : α} :
    ∀ {l : List (Nat × α)} {p}, p ∈ (btInsert k v l).1 → p = (k, v) ∨ p ∈ l := by
  intro l
  induction l with
  | nil =>
    intro p hp
    simp only [btInsert, List.mem_singleton] at hp
    exact Or.inl hp
  | cons a t ih =>
    intro p hp
    simp only [btInsert] at hp
    by_cases h1 : k < a.1
    · rw [if_pos h1] at hp
      rcases List.mem_cons.mp hp with rfl | hp'
      · exact Or.inl rfl
      · exact Or.inr hp'
    · rw [if_neg h1] at hp
      by_cases h2 : k = a.1
      · rw [if_pos h2] at hp
        rcases List.mem_cons.mp hp with rfl | hp'
        · exact Or.inl rfl
        · exact Or.inr (List.mem_cons_of_mem _ hp')
      · rw [if_neg h2] at hp
        rcases List.mem_cons.mp hp with rfl | hp'
        · exact Or.inr (List.mem_cons_self _ _)
        · rcases ih hp' with h | h
          · exact Or.inl h
          · exact Or.inr (List.mem_cons_of_mem _ h)

theorem btExtend_mem_fwd {α : Type u} :
    ∀ {adds l : List (Nat × α)} {p}, p ∈ btExtend l adds → p ∈ l ∨ p ∈ adds := by
  intro adds
  induction adds with
  | nil => intro l p hp; exact Or.inl hp
  | cons x rest ih =>
    intro l p hp
    rcases ih hp with h | h
    · rcases btInsert_mem_fwd h with h' | h'
      · exact Or.inr (by rw [h']; exact List.mem_cons_self _ _)
      · exact Or.inl h'
    · exact Or.inr (List.mem_cons_of_mem _ h)

theorem map_area_ok_inv {PT : Type} {a a' : MemoryArea PT} {pt pt' : PT}
    {fl : Option Nat} (h : a.map_area pt fl = .ok (a', pt')) :
    ∃ fr, a.backend.mapFn a.start a.size (fl.getD a.flags) pt = (some fr, pt') ∧
      a' = { a with frames := btExtend a.frames fr } := by
  unfold MemoryArea.map_area at h
  dsimp only at h
  rcases hm : a.backend.mapFn a.start a.size (fl.getD a.flags) pt with ⟨o, pt2⟩
  rw [hm] at h
  cases o with
  | none => exact absurd h (by simp)
  | some fr =>
    simp only at h
    injection h with h2
    injection h2 with hA hB
    subst hB
    exact ⟨fr, rfl, hA.symm⟩

theorem unmap_area_ok_inv {PT : Type} {a a' : MemoryArea PT} {pt pt' : PT}
    (h : a.unmap_area pt = .ok (a', pt')) :
    a' = { a with frames := [] } := by
  unfold MemoryArea.unmap_area at h
  rcases hm : a.backend.unmapFn a.start a.size pt with ⟨b, pt2⟩
  rw [hm] at h
  cases b with
  | false => exact absurd h (by simp)
  | true =>
    simp only at h
    injection h with h2
    injection h2 with hA hB
    exact hA.symm

theorem shrink_left_ok_inv {PT : Type} {a a' : MemoryArea PT} {n : Nat}
    {pt pt' : PT} (h : a.shrink_left n pt = .ok (a', pt')) :
    0 < n ∧ n < a.size ∧
    a' = ({ a with va_range :=
        ⟨wrapAdd a.va_range.start (a.size - n), a.va_range.stop⟩ } :
      MemoryArea PT).retain_frames_in_range := by
  unfold MemoryArea.shrink_left at h
  by_cases hg : 0 < n ∧ n < a.size
  · rw [if_pos hg] at h
    dsimp only at h
    rcases hm : a.backend.unmapFn a.start (a.size - n) pt with ⟨b, pt2⟩
    rw [hm] at h
    cases b with
    | false => exact absurd h (by simp)
    | true =>
      simp only at h
      injection h with h2
      injection h2 with hA hB
      exact ⟨hg.1, hg.2, hA.symm⟩
  · rw [if_neg hg] at h
    exact absurd h (by simp)

theorem shrink_right_ok_inv {PT : Type} {a a' : MemoryArea PT} {n : Nat}
    {pt pt' : PT} (h : a.shrink_right n pt = .ok (a', pt')) :
    0 < n ∧ n < a.size ∧
    a' = ({ a with va_range :=
        ⟨a.va_range.start, wrapSub a.va_range.stop (a.size - n)⟩ } :
      MemoryArea PT).retain_frames_in_range := by
  unfold MemoryArea.shrink_right at h
  by_cases hg : 0 < n ∧ n < a.size
  · rw [if_pos hg] at h
    dsimp only at h
    rcases hm : a.backend.unmapFn (wrapAdd a.start n) (a.size - n) pt with ⟨b, pt2⟩
    rw [hm] at h
    cases b with
    | false => exact absurd h (by simp)
    | true =>
      simp only at h
      injection h with h2
      injection h2 with hA hB
      exact ⟨hg.1, hg.2, hA.symm⟩
  · rw [if_neg hg] at h
    exact absurd h (by simp)

theorem extend_left_ok_inv {PT : Type} {a a' : MemoryArea PT} {n : Nat}
    {pt pt' : PT} (h : a.extend_left n pt = .ok (a', pt')) :
    a.size < n ∧ ∃ fr,
      a.backend.mapFn (wrapSub a.start (n - a.size)) (n - a.size) a.flags pt =
        (some fr, pt') ∧
      a' = { a with frames := btExtend a.frames fr
                    va_range := ⟨wrapSub a.start (n - a.size), a.va_range.stop⟩ } := by
  unfold MemoryArea.extend_left at h
  by_cases hg : 0 < n ∧ a.size < n
  · rw [if_pos hg] at h
    dsimp only at h
    rcases hm : a.backend.mapFn (wrapSub a.start (n - a.size)) (n - a.size)
      a.flags pt with ⟨o, pt2⟩
    rw [hm] at h
    cases o with
    | none => exact absurd h (by simp)
    | some fr =>
      simp only at h
      injection h with h2
      injection h2 with hA hB
      subst hB
      exact ⟨hg.2, fr, rfl, hA.symm⟩
  · rw [if_neg hg] at h
    exact absurd h (by simp)

theorem extend_right_ok_inv {PT : Type} {a a' : MemoryArea PT} {n : Nat}
    {pt pt' : PT} (h : a.extend_right n pt = .ok (a', pt')) :
    a.size < n ∧ ∃ fr,
      a.backend.mapFn (wrapAdd a.start a.size) (n - a.size) a.flags pt =
        (some fr, pt') ∧
      a' = { a with frames := btExtend a.frames fr
                    va_range := ⟨a.va_range.start,
                      wrapAdd a.va_range.stop (n - a.size)⟩ } := by
  unfold MemoryArea.extend_right at h
  by_cases hg : 0 < n ∧ a.size < n
  · rw [if_pos hg] at h
    dsimp only at h
    rcases hm : a.backend.mapFn (wrapAdd a.start a.size) (n - a.size)
      a.flags pt with ⟨o, pt2⟩
    rw [hm] at h
    cases o with
    | none => exact absurd h (by simp)
    | some fr =>
      simp only at h
      injection h with h2
      injection h2 with hA hB
      subst hB
      exact ⟨hg.2, fr, rfl, hA.symm⟩
  · rw [if_neg hg] at h
    exact absurd h (by simp)

theorem split_some_inv {PT : Type} {a al ar : MemoryArea PT} {pos : Nat}
    (h : a.split pos = some (al, ar)) :
    a.start < pos ∧ pos < a.stop ∧
    al = { a with va_range := ⟨a.va_range.start, pos⟩
                  frames := a.frames.filter (fun p => decide (p.1 < pos)) } ∧
    ar = ⟨⟨pos, pos + (a.stop - pos)⟩,
      a.frames.filter (fun p => decide (pos ≤ p.1)), a.flags, a.backend⟩ := by
  unfold MemoryArea.split at h
  by_cases hg : a.start < pos ∧ pos < a.stop
  · rw [if_pos hg] at h
    simp only [Option.some.injEq] at h
    injection h with hA hB
    exact ⟨hg.1, hg.2, hA.symm, hB.symm⟩
  · rw [if_neg hg] at h
    cases h

theorem insert_frame_ok_inv {PT : Type} {a a' : MemoryArea PT} {va fr : Nat}
    {old : Option Nat} (h : a.insert_frame va fr = .ok (a', old)) :
    aligned4k va = true ∧ a' = { a with frames := (btInsert va fr a.frames).1 } := by
  unfold MemoryArea.insert_frame at h
  by_cases hg : aligned4k va = true
  · rw [if_pos hg] at h
    dsimp only at h
    injection h with h2
    injection h2 with hA hB
    exact ⟨hg, hA.symm⟩
  · rw [if_neg (by simpa using hg)] at h
    exact absurd h (by simp)

theorem goodBackend_noop : GoodBackend noopBackend := by
  intro st sz fl pt fr pt' hm p hp
  simp only [noopBackend] at hm
  injection hm with h1 h2
  injection h1 with h1
  subst h1
  cases hp

/-- The master induction behind C9: every reachable area keeps its frame
table inside its range with 4K-aligned keys, stays bounded, and keeps its
well-behaved backend. -/
theorem areaReach_invariants {PT : Type} {a : MemoryArea PT} (h : AreaReach a) :
    FramesWF a ∧ AreaWF a ∧ GoodBackend a.backend := by
  induction h with
  | new_ start size flags bk hgb hW =>
    refine ⟨?_, ⟨Nat.le_add_right _ _, hW⟩, hgb⟩
    intro p hp
    exact absurd hp (by simp [MemoryArea.new])
  | map_area_ a a' pt pt' fl hr hok ih =>
    obtain ⟨hF, hA, hG⟩ := ih
    obtain ⟨fr, hm, ha'⟩ := map_area_ok_inv hok
    subst ha'
    refine ⟨?_, hA, hG⟩
    intro p hp
    rcases btExtend_mem_fwd hp with hpm | hpm
    · exact hF p hpm
    · obtain ⟨h1, h2, h3⟩ := hG _ _ _ _ _ _ hm p hpm
      refine ⟨h1, h2, ?_⟩
      obtain ⟨hA1, hA2⟩ := hA
      simp only [MemoryArea.start, MemoryArea.size, AddrRange.size] at h2 h3
      dsimp only
      omega
  | unmap_area_ a a' pt pt' hr hok ih =>
    obtain ⟨hF, hA, hG⟩ := ih
    rw [unmap_area_ok_inv hok]
    exact ⟨fun p hp => absurd hp (by simp), hA, hG⟩
  | shrink_left_ a a' n pt pt' hr hok ih =>
    obtain ⟨hF, hA, hG⟩ := ih
    obtain ⟨hn1, hn2, ha'⟩ := shrink_left_ok_inv hok
    obtain ⟨hA1, hA2⟩ := hA
    have hsz : a.size = a.va_range.stop - a.va_range.start := rfl
    have hw : wrapAdd a.va_range.start (a.size - n) =
        a.va_range.start + (a.size - n) := wrapAdd_eq (by omega)
    subst ha'
    refine ⟨?_, ⟨?_, hA2⟩, hG⟩
    · intro p hp
      simp only [MemoryArea.retain_frames_in_range, List.mem_filter] at hp
      obtain ⟨hp1, hp2⟩ := hp
      simp only [AddrRange.containsA, Bool.and_eq_true, decide_eq_true_eq] at hp2
      exact ⟨(hF p hp1).1, hp2.1, hp2.2⟩
    · simp only [MemoryArea.retain_frames_in_range]
      rw [hw]
      omega
  | shrink_right_ a a' n pt pt' hr hok ih =>
    obtain ⟨hF, hA, hG⟩ := ih
    obtain ⟨hn1, hn2, ha'⟩ := shrink_right_ok_inv hok
    obtain ⟨hA1, hA2⟩ := hA
    have hsz : a.size = a.va_range.stop - a.va_range.start := rfl
    have hw : wrapSub a.va_range.stop (a.size - n) =
        a.va_range.stop - (a.size - n) := wrapSub_eq (by omega) hA2
    subst ha'
    refine ⟨?_, ⟨?_, ?_⟩, hG⟩
    · intro p hp
      simp only [MemoryArea.retain_frames_in_range, List.mem_filter] at hp
      obtain ⟨hp1, hp2⟩ := hp
      simp only [AddrRange.containsA, Bool.and_eq_true, decide_eq_true_eq] at hp2
      exact ⟨(hF p hp1).1, hp2.1, hp2.2⟩
    · simp only [MemoryArea.retain_frames_in_range]
      rw [hw]
      omega
    · simp only [MemoryArea.retain_frames_in_range]
      rw [hw]
      omega
  | extend_left_ a a' n pt pt' hr hside hok ih =>
    obtain ⟨hF, hA, hG⟩ := ih
    obtain ⟨hn, fr, hm, ha'⟩ := extend_left_ok_inv hok
    obtain ⟨hA1, hA2⟩ := hA
    have hsz : a.size = a.va_range.stop - a.va_range.start := rfl
    have hw : wrapSub a.start (n - a.size) = a.va_range.start - (n - a.size) :=
      wrapSub_eq (by simpa [MemoryArea.start] using hside)
        (by simp only [MemoryArea.start]; omega)
    rw [hw] at hm
    subst ha'
    refine ⟨?_, ⟨by dsimp only; rw [hw]; omega, hA2⟩, hG⟩
    intro p hp
    rcases btExtend_mem_fwd hp with hpm | hpm
    · obtain ⟨h1, h2, h3⟩ := hF p hpm
      dsimp only
      rw [hw]
      exact ⟨h1, by omega, by omega⟩
    · obtain ⟨h1, h2, h3⟩ := hG _ _ _ _ _ _ hm p hpm
      simp only [MemoryArea.start] at hside
      dsimp only
      rw [hw]
      refine ⟨h1, h2, ?_⟩
      omega
  | extend_right_ a a' n pt pt' hr hside hok ih =>
    obtain ⟨hF, hA, hG⟩ := ih
    obtain ⟨hn, fr, hm, ha'⟩ := extend_right_ok_inv hok
    obtain ⟨hA1, hA2⟩ := hA
    have hsz : a.size = a.va_range.stop - a.va_range.start := rfl
    have hw1 : wrapAdd a.start a.size = a.va_range.stop := by
      rw [wrapAdd_eq (by simp only [MemoryArea.start]; omega)]
      simp only [MemoryArea.start]
      omega
    have hw2 : wrapAdd a.va_range.stop (n - a.size) =
        a.va_range.stop + (n - a.size) := wrapAdd_eq (by omega)
    rw [hw1] at hm
    subst ha'
    refine ⟨?_, ⟨by dsimp only; rw [hw2]; omega,
      by dsimp only; rw [hw2]; omega⟩, hG⟩
    intro p hp
    rcases btExtend_mem_fwd hp with hpm | hpm
    · obtain ⟨h1, h2, h3⟩ := hF p hpm
      dsimp only
      rw [hw2]
      exact ⟨h1, h2, by omega⟩
    · obtain ⟨h1, h2, h3⟩ := hG _ _ _ _ _ _ hm p hpm
      dsimp only
      rw [hw2]
      exact ⟨h1, by omega, by omega⟩
  | split_l a al ar pos hr hsp ih =>
    obtain ⟨hF, hA, hG⟩ := ih
    obtain ⟨hg1, hg2, hal, har⟩ := split_some_inv hsp
    obtain ⟨hA1, hA2⟩ := hA
    simp only [MemoryArea.start, MemoryArea.stop] at hg1 hg2
    subst hal
    refine ⟨?_, ⟨by dsimp only; omega, by dsimp only; omega⟩, hG⟩
    intro p hp
    simp only [List.mem_filter, decide_eq_true_eq] at hp
    obtain ⟨hp1, hp2⟩ := hp
    exact ⟨(hF p hp1).1, (hF p hp1).2.1, hp2⟩
  | split_r a al ar pos hr hsp ih =>
    obtain ⟨hF, hA, hG⟩ := ih
    obtain ⟨hg1, hg2, hal, har⟩ := split_some_inv hsp
    obtain ⟨hA1, hA2⟩ := hA
    simp only [MemoryArea.start, MemoryArea.stop] at hg1 hg2
    subst har
    refine ⟨?_, ⟨by dsimp only [MemoryArea.stop]; omega,
      by dsimp only [MemoryArea.stop]; omega⟩, hG⟩
    intro p hp
    simp only [List.mem_filter, decide_eq_true_eq] at hp
    obtain ⟨hp1, hp2⟩ := hp
    refine ⟨(hF p hp1).1, hp2, ?_⟩
    have := (hF p hp1).2.2
    simp only [MemoryArea.stop]
    omega
  | insert_frame_ a a' va fr old hr hin hok ih =>
    obtain ⟨hF, hA, hG⟩ := ih
    obtain ⟨hal, ha'⟩ := insert_frame_ok_inv hok
    simp only [AddrRange.containsA, Bool.and_eq_true, decide_eq_true_eq] at hin
    subst ha'
    refine ⟨?_, hA, hG⟩
    intro p hp
    rcases btInsert_mem_fwd hp with rfl | hpm
    · exact ⟨hal, hin.1, hin.2⟩
    · exact hF p hpm

/-- C9 counterexample: the public `insert_frame` checks only 4K alignment
(`debug_assert!`), not membership in the area's range; inserting an aligned
address outside the range succeeds and breaks the invariant. -/
theorem insert_frame_outside_range_breaks_invariant :
    ((MemoryArea.new 0x1000 0x1000 none 3 noopBackend).insert_frame 0x5000 7 =
      .ok (⟨⟨0x1000, 0x2000⟩, [(0x5000, 7)], 3, noopBackend⟩, none)) ∧
    ¬ FramesWF (⟨⟨0x1000, 0x2000⟩, [(0x5000, 7)], 3, noopBackend⟩ :
      MemoryArea Unit) := by
  refine ⟨rfl, fun h => ?_⟩
  have := h (0x5000, 7) (List.mem_singleton.mpr rfl)
  dsimp only at this
  omega

/-- C9 amended (restricts `insert_frame` to in-range addresses, requires the
spec's backend contract, and non-wrapping extensions): after any sequence of
the public area operations, every frame-table key is 4K-aligned and lies in
`[area.start, area.end)`. -/
theorem area_frames_invariant {PT : Type} (a : MemoryArea PT)
    (h : AreaReach a) : FramesWF a :=
  (areaReach_invariants h).1

/-- Witness for C9: a `new` area followed by an in-range `insert_frame`. -/
theorem area_frames_invariant_witness :
    FramesWF (⟨⟨0x1000, 0x2000⟩, [(0x1000, 7)], 3, noopBackend⟩ :
      MemoryArea Unit) :=
  area_frames_invariant _
    (AreaReach.insert_frame_ (MemoryArea.new 0x1000 0x1000 none 3 noopBackend)
      _ 0x1000 7 none
      (AreaReach.new_ 0x1000 0x1000 3 noopBackend goodBackend_noop (by decide))
      (by decide) rfl)

/-! ## C4: the set invariant under all public mutations -/

theorem btGet_mem {α : Type u} {k : Nat} :
    ∀ {l : List (Nat × α)} {v}, btGet k l = some v → (k, v) ∈ l := by
  intro l
  induction l with
  | nil => intro v h; cases h
  | cons a t ih =>
    intro v h
    simp only [btGet] at h
    by_cases ha : a.1 = k
    · rw [if_pos ha] at h
      injection h with h
      subst h
      subst ha
      exact List.mem_cons_self _ _
    · rw [if_neg ha] at h
      exact List.mem_cons_of_mem _ (ih h)

theorem btRemove_sublist {α : Type u} {k : Nat} :
    ∀ {l : List (Nat × α)}, (btRemove k l).1.Sublist l := by
  intro l
  induction l with
  | nil => exact List.Sublist.refl _
  | cons a t ih =>
    simp only [btRemove]
    by_cases ha : a.1 = k
    · rw [if_pos ha]
      exact List.sublist_cons_self _ _
    · rw [if_neg ha]
      exact List.Sublist.cons₂ _ ih

theorem btRemove_mem {α : Type u} {k : Nat} :
    ∀ {l : List (Nat × α)}, l.Pairwise (fun a b => a.1 < b.1) →
    ∀ {p}, p ∈ (btRemove k l).1 → p ∈ l ∧ p.1 ≠ k := by
  intro l
  induction l with
  | nil => intro _ p hp; cases hp
  | cons a t ih =>
    intro hs p hp
    obtain ⟨hhead, htail⟩ := List.pairwise_cons.mp hs
    simp only [btRemove] at hp
    by_cases ha : a.1 = k
    · rw [if_pos ha] at hp
      refine ⟨List.mem_cons_of_mem _ hp, ?_⟩
      have := hhead p hp
      omega
    · rw [if_neg ha] at hp
      rcases List.mem_cons.mp hp with rfl | hp'
      · exact ⟨List.mem_cons_self _ _, ha⟩
      · obtain ⟨h1, h2⟩ := ih htail hp'
        exact ⟨List.mem_cons_of_mem _ h1, h2⟩

theorem btSet_mem {α : Type u} {k : Nat} {v : α} :
    ∀ {l : List (Nat × α)}, l.Pairwise (fun a b => a.1 < b.1) →
    ∀ {p}, p ∈ btSet k v l → p = (k, v) ∨ (p ∈ l ∧ p.1 ≠ k) := by
  intro l
  induction l with
  | nil => intro _ p hp; cases hp
  | cons a t ih =>
    intro hs p hp
    obtain ⟨hhead, htail⟩ := List.pairwise_cons.mp hs
    simp only [btSet] at hp
    by_cases ha : a.1 = k
    · rw [if_pos ha] at hp
      rcases List.mem_cons.mp hp with rfl | hp'
      · exact Or.inl (by rw [ha])
      · refine Or.inr ⟨List.mem_cons_of_mem _ hp', ?_⟩
        have := hhead p hp'
        omega
    · rw [if_neg ha] at hp
      rcases List.mem_cons.mp hp with rfl | hp'
      · exact Or.inr ⟨List.mem_cons_self _ _, ha⟩
      · rcases ih htail hp' with h | ⟨h1, h2⟩
        · exact Or.inl h
        · exact Or.inr ⟨List.mem_cons_of_mem _ h1, h2⟩

theorem btInsert_mem {α : Type u} {k : Nat} {v : α} :
    ∀ {l : List (Nat × α)}, l.Pairwise (fun a b => a.1 < b.1) →
    ∀ {p}, p ∈ (btInsert k v l).1 → p = (k, v) ∨ (p ∈ l ∧ p.1 ≠ k) := by
  intro l
  induction l with
  | nil =>
    intro _ p hp
    simp only [btInsert, List.mem_singleton] at hp
    exact Or.inl hp
  | cons a t ih =>
    intro hs p hp
    obtain ⟨hhead, htail⟩ := List.pairwise_cons.mp hs
    simp only [btInsert] at hp
    by_cases h1 : k < a.1
    · rw [if_pos h1] at hp
      rcases List.mem_cons.mp hp with rfl | hp'
      · exact Or.inl rfl
      · rcases List.mem_cons.mp hp' with rfl | hp''
        · exact Or.inr ⟨List.mem_cons_self _ _, by omega⟩
        · refine Or.inr ⟨List.mem_cons_of_mem _ hp'', ?_⟩
          have := hhead p hp''
          omega
    · rw [if_neg h1] at hp
      by_cases h2 : k = a.1
      · rw [if_pos h2] at hp
        rcases List.mem_cons.mp hp with rfl | hp'
        · exact Or.inl rfl
        · refine Or.inr ⟨List.mem_cons_of_mem _ hp', ?_⟩
          have := hhead p hp'
          omega
      · rw [if_neg h2] at hp
        rcases List.mem_cons.mp hp with rfl | hp'
        · exact Or.inr ⟨List.mem_cons_self _ _, by omega⟩
        · rcases ih htail hp' with h | ⟨ha, hb⟩
          · exact Or.inl h
          · exact Or.inr ⟨List.mem_cons_of_mem _ ha, hb⟩

theorem btInsert_ksorted {α : Type u} {k : Nat} {v : α} :
    ∀ {l : List (Nat × α)}, l.Pairwise (fun a b => a.1 < b.1) →
    (btInsert k v l).1.Pairwise (fun a b => a.1 < b.1) := by
  intro l
  induction l with
  | nil => intro _; simp [btInsert]
  | cons a t ih =>
    intro hs
    obtain ⟨hhead, htail⟩ := List.pairwise_cons.mp hs
    simp only [btInsert]
    by_cases h1 : k < a.1
    · rw [if_pos h1]
      refine List.pairwise_cons.mpr ⟨?_, hs⟩
      intro q hq
      rcases List.mem_cons.mp hq with rfl | hq'
      · exact h1
      · have := hhead q hq'
        omega
    · rw [if_neg h1]
      by_cases h2 : k = a.1
      · rw [if_pos h2]
        refine List.pairwise_cons.mpr ⟨?_, htail⟩
        intro q hq
        have := hhead q hq
        omega
      · rw [if_neg h2]
        refine List.pairwise_cons.mpr ⟨?_, ih htail⟩
        intro q hq
        rcases btInsert_mem_fwd hq with rfl | hq'
        · omega
        · exact hhead q hq'

theorem btSet_map_fst {α : Type u} {k : Nat} {v : α} :
    ∀ {l : List (Nat × α)}, (btSet k v l).map Prod.fst = l.map Prod.fst := by
  intro l
  induction l with
  | nil => rfl
  | cons a t ih =>
    simp only [btSet]
    by_cases ha : a.1 = k
    · rw [if_pos ha]
      simp
    · rw [if_neg ha]
      simp [ih]

theorem btSet_ksorted {α : Type u} {k : Nat} {v : α}
    {l : List (Nat × α)} (hs : l.Pairwise (fun a b => a.1 < b.1)) :
    (btSet k v l).Pairwise (fun a b => a.1 < b.1) := by
  have h1 : (l.map Prod.fst).Pairwise (fun a b => a < b) :=
    List.pairwise_map.mpr hs
  rw [← btSet_map_fst (k := k) (v := v)] at h1
  exact List.pairwise_map.mp h1

theorem btSet_of_not_mem {α : Type u} {k : Nat} {v : α} :
    ∀ {l : List (Nat × α)}, k ∉ l.map Prod.fst → btSet k v l = l := by
  intro l
  induction l with
  | nil => intro _; rfl
  | cons a t ih =>
    intro hk
    simp only [List.map_cons, List.mem_cons, not_or] at hk
    simp only [btSet]
    rw [if_neg (fun h => hk.1 h.symm), ih hk.2]

theorem btSet_pairwise {α : Type u} {R : (Nat × α) → (Nat × α) → Prop}
    {k : Nat} {v : α} :
    ∀ {l : List (Nat × α)}, l.Pairwise R →
    l.Pairwise (fun a b => a.1 < b.1) →
    (∀ p ∈ l, p.1 < k → R p (k, v)) →
    (∀ p ∈ l, k < p.1 → R (k, v) p) →
    (btSet k v l).Pairwise R := by
  intro l
  induction l with
  | nil => intro _ _ _ _; simp [btSet]
  | cons a t ih =>
    intro hr hs hlo hhi
    obtain ⟨hrhead, hrtail⟩ := List.pairwise_cons.mp hr
    obtain ⟨hshead, hstail⟩ := List.pairwise_cons.mp hs
    simp only [btSet]
    by_cases ha : a.1 = k
    · rw [if_pos ha]
      refine List.pairwise_cons.mpr ⟨?_, hrtail⟩
      intro q hq
      have hkq : k < q.1 := by have := hshead q hq; omega
      have := hhi q (List.mem_cons_of_mem _ hq) hkq
      rw [ha]
      exact this
    · rw [if_neg ha]
      by_cases hak : a.1 < k
      · refine List.pairwise_cons.mpr ⟨?_, ih hrtail hstail
          (fun p hp hpk => hlo p (List.mem_cons_of_mem _ hp) hpk)
          (fun p hp hpk => hhi p (List.mem_cons_of_mem _ hp) hpk)⟩
        intro q hq
        rcases btSet_mem hstail hq with rfl | ⟨hq', _⟩
        · exact hlo a (List.mem_cons_self _ _) hak
        · exact hrhead q hq'
      · have hknot : k ∉ t.map Prod.fst := by
          intro hmem
          obtain ⟨q, hq, he⟩ := List.mem_map.mp hmem
          have := hshead q hq
          omega
        rw [btSet_of_not_mem hknot]
        exact hr

theorem btInsert_pairwise {α : Type u} {R : (Nat × α) → (Nat × α) → Prop}
    {k : Nat} {v : α} :
    ∀ {l : List (Nat × α)}, l.Pairwise R →
    l.Pairwise (fun a b => a.1 < b.1) →
    (∀ p ∈ l, p.1 < k → R p (k, v)) →
    (∀ p ∈ l, k < p.1 → R (k, v) p) →
    (btInsert k v l).1.Pairwise R := by
  intro l
  induction l with
  | nil => intro _ _ _ _; simp [btInsert]
  | cons a t ih =>
    intro hr hs hlo hhi
    obtain ⟨hrhead, hrtail⟩ := List.pairwise_cons.mp hr
    obtain ⟨hshead, hstail⟩ := List.pairwise_cons.mp hs
    simp only [btInsert]
    by_cases h1 : k < a.1
    · rw [if_pos h1]
      refine List.pairwise_cons.mpr ⟨?_, hr⟩
      intro q hq
      rcases List.mem_cons.mp hq with rfl | hq'
      · exact hhi q (List.mem_cons_self _ _) h1
      · refine hhi q (List.mem_cons_of_mem _ hq') ?_
        have := hshead q hq'
        omega
    · rw [if_neg h1]
      by_cases h2 : k = a.1
      · rw [if_pos h2]
        refine List.pairwise_cons.mpr ⟨?_, hrtail⟩
        intro q hq
        refine hhi q (List.mem_cons_of_mem _ hq) ?_
        have := hshead q hq
        omega
      · rw [if_neg h2]
        refine List.pairwise_cons.mpr ⟨?_, ih hrtail hstail
          (fun p hp hpk => hlo p (List.mem_cons_of_mem _ hp) hpk)
          (fun p hp hpk => hhi p (List.mem_cons_of_mem _ hp) hpk)⟩
        intro q hq
        rcases btInsert_mem_fwd hq with rfl | hq'
        · exact hlo a (List.mem_cons_self _ _) (by omega)
        · exact hrhead q hq'

theorem btExtend_ksorted {α : Type u} :
    ∀ {adds l : List (Nat × α)}, l.Pairwise (fun a b => a.1 < b.1) →
    (btExtend l adds).Pairwise (fun a b => a.1 < b.1) := by
  intro adds
  induction adds with
  | nil => intro l h; exact h
  | cons x rest ih => intro l h; exact ih (btInsert_ksorted h)

/-- Rebuild the ordered non-overlap chain from keys and symmetric
disjointness. -/
theorem chain_of_disjAll {PT : Type} :
    ∀ {m : List (Nat × MemoryArea PT)},
    m.Pairwise (fun a b => a.1 < b.1) →
    (∀ p ∈ m, EntryWF p) →
    (∀ p ∈ m, ∀ q ∈ m, p.1 ≠ q.1 → Disj p q ∨ Disj q p) →
    m.Pairwise (fun p q => p.2.va_range.stop ≤ q.2.va_range.start) := by
  intro m
  induction m with
  | nil => intro _ _ _; exact List.Pairwise.nil
  | cons a t ih =>
    intro hs hent hd
    obtain ⟨hshead, hstail⟩ := List.pairwise_cons.mp hs
    refine List.pairwise_cons.mpr ⟨?_, ih hstail
      (fun p hp => hent p (List.mem_cons_of_mem _ hp))
      (fun p hp q hq => hd p (List.mem_cons_of_mem _ hp) q
        (List.mem_cons_of_mem _ hq))⟩
    intro q hq
    have hlt := hshead q hq
    rcases hd a (List.mem_cons_self _ _) q (List.mem_cons_of_mem _ hq)
      (by omega) with h | h
    · exact h
    · exfalso
      obtain ⟨ha1, ha2, _⟩ := hent a (List.mem_cons_self _ _)
      obtain ⟨hq1, hq2, _⟩ := hent q (List.mem_cons_of_mem _ hq)
      simp only [Disj] at h
      omega

/-- On a well-formed set, the neighbour-only `overlaps` check is equivalent
to the absence of any overlapping area. -/
theorem overlaps_eq_false_iff {PT : Type} {s : MemorySet PT} (hwf : SetWF s)
    (r : AddrRange) :
    s.overlaps r = false ↔
      ∀ p ∈ s.areas, AddrRange.overlapsR p.2.va_range r = false := by
  obtain ⟨hks, hchain, hent⟩ := hwf
  constructor
  · intro h p hp
    simp only [MemorySet.overlaps, Bool.or_eq_false_iff] at h
    obtain ⟨hbefore, hafter⟩ := h
    by_contra hc
    rw [Bool.not_eq_false] at hc
    simp only [AddrRange.overlapsR, Bool.and_eq_true, decide_eq_true_eq] at hc
    obtain ⟨hc1, hc2⟩ := hc
    obtain ⟨hkp, hnp, _⟩ := hent p hp
    by_cases hside : p.1 < r.start
    · rcases hA : btLastLt r.start s.areas with _ | q
      · exact absurd hside (btLastLt_none hA p hp)
      · rw [hA] at hbefore
        obtain ⟨hqmem, hqlt⟩ := btLastLt_mem hA
        obtain ⟨hkq, hnq, _⟩ := hent q hqmem
        by_cases hpq : p = q
        · subst hpq
          simp only [AddrRange.overlapsR, Bool.and_eq_false_iff,
            decide_eq_false_iff_not, not_lt] at hbefore
          omega
        · have hplt : p.1 < q.1 := lt_of_le_of_ne
            (btLastLt_max hks hA p hp hside)
            (fun h => hpq (keys_inj hks hp hqmem h))
          have hrel := pairwise_rel_of_keys hchain hks hp hqmem hplt
          simp only at hrel
          omega
    · rcases hA : btFirstGe r.start s.areas with _ | q
      · have := btFirstGe_none hA p hp
        omega
      · rw [hA] at hafter
        obtain ⟨hqmem, hqge⟩ := btFirstGe_mem hA
        obtain ⟨hkq, hnq, _⟩ := hent q hqmem
        simp only [AddrRange.overlapsR, Bool.and_eq_false_iff,
          decide_eq_false_iff_not, not_lt] at hafter
        by_cases hpq : p = q
        · subst hpq; omega
        · have hqlt : q.1 < p.1 := lt_of_le_of_ne
            (btFirstGe_min hks hA p hp (by omega))
            (fun h => hpq (keys_inj hks hqmem hp h).symm)
          have hrel := pairwise_rel_of_keys hchain hks hqmem hp hqlt
          simp only at hrel
          omega
  · intro h
    simp only [MemorySet.overlaps, Bool.or_eq_false_iff]
    constructor
    · rcases hA : btLastLt r.start s.areas with _ | q
      · rfl
      · exact h q (btLastLt_mem hA).1
    · rcases hA : btFirstGe r.start s.areas with _ | q
      · rfl
      · exact h q (btFirstGe_mem hA).1

theorem insert_ok_inv {PT : Type} {s s' : MemorySet PT} {area : MemoryArea PT}
    {uo : Bool} (h : s.insert area uo = .ok s') :
    area.va_range.isEmpty = false ∧
    (s.overlaps area.va_range && !uo) = false ∧
    s' = ⟨(btInsert area.start area s.areas).1⟩ := by
  unfold MemorySet.insert at h
  by_cases h1 : area.va_range.isEmpty = true
  · rw [if_pos h1] at h
    exact absurd h (by simp)
  · rw [Bool.not_eq_true] at h1
    rw [h1] at h
    simp only [Bool.false_eq_true, if_false] at h
    by_cases h2 : (s.overlaps area.va_range && !uo) = true
    · rw [if_pos h2] at h
      exact absurd h (by simp)
    · rw [Bool.not_eq_true] at h2
      rw [h2] at h
      simp only [Bool.false_eq_true, if_false] at h
      rcases hins : (btInsert area.start area s.areas).2 with _ | old
      · rw [hins] at h
        simp only at h
        injection h with h
        exact ⟨h1, h2, h.symm⟩
      · rw [hins] at h
        exact absurd h (by simp)

/-- Insertion of a non-overlapping, bounded area preserves the invariant. -/
theorem insert_wf {PT : Type} {s s' : MemorySet PT} {area : MemoryArea PT}
    {uo : Bool} (hwf : SetWF s)
    (hle : area.va_range.start ≤ area.va_range.stop)
    (hW : area.va_range.stop < W)
    (hside : uo = true → s.overlaps area.va_range = false)
    (h : s.insert area uo = .ok s') : SetWF s' := by
  obtain ⟨hne, hov, hs'⟩ := insert_ok_inv h
  have hovf : s.overlaps area.va_range = false := by
    cases uo with
    | true => exact hside rfl
    | false => simpa using hov
  have hnov := (overlaps_eq_false_iff hwf _).mp hovf
  obtain ⟨hks, hchain, hent⟩ := hwf
  have hnonempty : area.va_range.start < area.va_range.stop := by
    simp only [AddrRange.isEmpty, beq_eq_false_iff_ne, ne_eq] at hne
    omega
  subst hs'
  refine ⟨btInsert_ksorted hks, ?_, ?_⟩
  · refine btInsert_pairwise hchain hks ?_ ?_
    · intro p hp hpk
      have hno := hnov p hp
      simp only [AddrRange.overlapsR, Bool.and_eq_false_iff,
        decide_eq_false_iff_not, not_lt] at hno
      obtain ⟨hkp, hnp, _⟩ := hent p hp
      simp only [MemoryArea.start] at hpk
      dsimp only
      rcases hno with hcase | hcase <;> omega
    · intro p hp hpk
      have hno := hnov p hp
      simp only [AddrRange.overlapsR, Bool.and_eq_false_iff,
        decide_eq_false_iff_not, not_lt] at hno
      obtain ⟨hkp, hnp, _⟩ := hent p hp
      simp only [MemoryArea.start] at hpk
      dsimp only
      rcases hno with hcase | hcase <;> omega
  · intro p hp
    rcases btInsert_mem hks hp with rfl | ⟨hp', _⟩
    · exact ⟨rfl, hnonempty, hW⟩
    · exact hent p hp'

/-- `delete` preserves the invariant. -/
theorem delete_wf {PT : Type} {s : MemorySet PT} (hwf : SetWF s) (va : Nat) :
    SetWF (s.delete va) := by
  obtain ⟨hks, hchain, hent⟩ := hwf
  exact ⟨List.Pairwise.sublist btRemove_sublist hks,
    List.Pairwise.sublist btRemove_sublist hchain,
    fun p hp => hent p (btRemove_sublist.mem hp)⟩

/-- A successful `clear` empties the map. -/
theorem clear_ok_inv {PT : Type} {s s' : MemorySet PT} {pt pt' : PT}
    (h : s.clear pt = .ok (s', pt')) : s' = ⟨[]⟩ := by
  unfold MemorySet.clear at h
  rcases hc : MemorySet.clearLoop pt s.areas with ⟨l, p⟩ | ⟨e, lp⟩ | _ <;>
    rw [hc] at h
  · injection h with h2
    injection h2 with hA hB
    exact hA.symm
  · exact absurd h (by simp)
  · exact absurd h (by simp)

theorem unmapPhase1_ok_inv {PT : Type} {range : AddrRange} {pt pt' : PT} :
    ∀ {l l' : List (Nat × MemoryArea PT)},
    MemorySet.unmapPhase1 range pt l = .ok (l', pt') →
    l' = l.filter (fun p => !(p.2.va_range.contained_in range)) := by
  intro l
  induction l generalizing pt with
  | nil =>
    intro l' h
    simp only [MemorySet.unmapPhase1] at h
    injection h with h2
    injection h2 with hA hB
    exact hA.symm
  | cons a t ih =>
    intro l' h
    simp only [MemorySet.unmapPhase1] at h
    by_cases hc : a.2.va_range.contained_in range = true
    · rw [if_pos hc] at h
      rcases hu : a.2.unmap_area pt with ⟨a2, pt2⟩ | ⟨e, x⟩ | _ <;> rw [hu] at h
      · simp only [List.filter_cons, hc]
        exact ih h
      · exact absurd h (by simp)
      · exact absurd h (by simp)
    · rw [Bool.not_eq_true] at hc
      rw [hc] at h
      simp only [Bool.false_eq_true, if_false] at h
      rcases hr : MemorySet.unmapPhase1 range pt t with ⟨l2, pt2⟩ | ⟨e, x⟩ | _ <;>
        rw [hr] at h
      · injection h with h2
        injection h2 with hA hB
        subst hA
        subst hB
        simp only [List.filter_cons, hc, Bool.not_false, if_pos]
        rw [ih hr]
      · exact absurd h (by simp)
      · exact absurd h (by simp)

/-- Phase 3 of `unmap`: given that phases 1-2 removed everything contained in
the range and truncated everything left of `st`, the result is well-formed and
free of the range. -/
theorem unmapPhase3_ok {PT : Type} {st e : Nat}
    {l : List (Nat × MemoryArea PT)} {pt pt' : PT} {s' : MemorySet PT}
    (hst : st < e) (heW : e < W)
    (hks : l.Pairwise (fun a b => a.1 < b.1))
    (hch : l.Pairwise (fun p q => p.2.va_range.stop ≤ q.2.va_range.start))
    (hent : ∀ p ∈ l, EntryWF p)
    (hP1 : ∀ p ∈ l, p.1 < st → p.2.va_range.stop ≤ st)
    (hP2 : ∀ p ∈ l, ¬(st ≤ p.2.va_range.start ∧ p.2.va_range.stop ≤ e))
    (h : MemorySet.unmapPhase3 st e l pt = .ok (s', pt')) :
    SetWF s' ∧ ∀ p ∈ s'.areas,
      AddrRange.overlapsR p.2.va_range ⟨st, e⟩ = false := by
  unfold MemorySet.unmapPhase3 at h
  rcases hA : btFirstGe st l with _ | q
  · rw [hA] at h
    simp only at h
    injection h with h2
    injection h2 with hA' hB'
    subst hB'
    rw [← hA']
    refine ⟨⟨hks, hch, hent⟩, ?_⟩
    intro p hp
    have hlt := btFirstGe_none hA p hp
    have h1 := hP1 p hp hlt
    simp only [AddrRange.overlapsR, Bool.and_eq_false_iff,
      decide_eq_false_iff_not, not_lt]
    omega
  · rw [hA] at h
    simp only at h
    obtain ⟨hqmem, hqge⟩ := btFirstGe_mem hA
    obtain ⟨hkq, hnq, hwq⟩ := hent q hqmem
    by_cases hqe : q.1 < e
    · rw [if_pos hqe] at h
      rcases hsh : q.2.shrink_left (q.2.stop - e) pt with ⟨a', pt2⟩ | ⟨er, x⟩ | _ <;>
        rw [hsh] at h
      · obtain ⟨hn1, hn2, ha'⟩ := shrink_left_ok_inv hsh
        have hqstop : e < q.2.va_range.stop := by
          have h2 := hP2 q hqmem
          simp only [MemoryArea.stop] at hn1
          omega
        have hsz : q.2.size = q.2.va_range.stop - q.2.va_range.start := rfl
        have hstart : a'.va_range.start = e := by
          rw [ha']
          simp only [MemoryArea.retain_frames_in_range, MemoryArea.stop]
          rw [wrapAdd_eq (by omega)]
          omega
        have hstop : a'.va_range.stop = q.2.va_range.stop := by
          rw [ha']
          rfl
        dsimp only at h
        rw [if_pos (show a'.start = e from hstart)] at h
        injection h with h2
        injection h2 with hA' hB'
        subst hB'
        rw [← hA']
        have hks' : (btRemove q.1 l).1.Pairwise (fun a b => a.1 < b.1) :=
          List.Pairwise.sublist btRemove_sublist hks
        have hch' : (btRemove q.1 l).1.Pairwise
            (fun p q => p.2.va_range.stop ≤ q.2.va_range.start) :=
          List.Pairwise.sublist btRemove_sublist hch
        have hrem : ∀ p ∈ (btRemove q.1 l).1, p ∈ l ∧ p.1 ≠ q.1 :=
          fun p hp => btRemove_mem hks hp
        have hkey_gt : ∀ p ∈ l, p.1 ≠ q.1 → st ≤ p.1 →
            q.2.va_range.stop ≤ p.2.va_range.start := by
          intro p hp hne hge
          have hqp : q.1 < p.1 :=
            lt_of_le_of_ne (btFirstGe_min hks hA p hp hge) (fun hh => hne hh.symm)
          exact pairwise_rel_of_keys hch hks hqmem hp hqp
        refine ⟨⟨btInsert_ksorted hks', ?_, ?_⟩, ?_⟩
        · refine btInsert_pairwise hch' hks' ?_ ?_
          · intro p hp hpe
            obtain ⟨hpl, hpne⟩ := hrem p hp
            dsimp only
            rw [hstart]
            by_cases hpst : p.1 < st
            · have := hP1 p hpl hpst
              omega
            · have := hkey_gt p hpl hpne (by omega)
              obtain ⟨hkp, hnp, _⟩ := hent p hpl
              omega
          · intro p hp hpe
            obtain ⟨hpl, hpne⟩ := hrem p hp
            dsimp only
            rw [hstop]
            have := hkey_gt p hpl hpne (by omega)
            exact this
        · intro p hp
          rcases btInsert_mem hks' hp with rfl | ⟨hp', _⟩
          · exact ⟨hstart.symm, by rw [hstart, hstop]; omega,
              by rw [hstop]; omega⟩
          · exact hent p (hrem p hp').1
        · intro p hp
          simp only [AddrRange.overlapsR, Bool.and_eq_false_iff,
            decide_eq_false_iff_not, not_lt]
          rcases btInsert_mem hks' hp with rfl | ⟨hp', _⟩
          · dsimp only
            rw [hstart]
            omega
          · obtain ⟨hpl, hpne⟩ := hrem p hp'
            by_cases hpst : p.1 < st
            · have := hP1 p hpl hpst
              omega
            · have := hkey_gt p hpl hpne (by omega)
              obtain ⟨hkp, hnp, _⟩ := hent p hpl
              omega
      · exact absurd h (by simp)
      · exact absurd h (by simp)
    · rw [if_neg hqe] at h
      injection h with h2
      injection h2 with hA' hB'
      subst hB'
      rw [← hA']
      refine ⟨⟨hks, hch, hent⟩, ?_⟩
      intro p hp
      simp only [AddrRange.overlapsR, Bool.and_eq_false_iff,
        decide_eq_false_iff_not, not_lt]
      by_cases hpst : p.1 < st
      · have := hP1 p hp hpst
        omega
      · have hge := btFirstGe_min hks hA p hp (by omega)
        obtain ⟨hkp, hnp, _⟩ := hent p hp
        omega

/-- A successful `unmap` preserves the invariant and clears the range. -/
theorem unmap_ok {PT : Type} {s s' : MemorySet PT} {st sz : Nat} {pt pt' : PT}
    (hwf : SetWF s) (h : s.unmap st sz pt = .ok (s', pt')) :
    SetWF s' ∧ (0 < sz → ∀ p ∈ s'.areas,
      AddrRange.overlapsR p.2.va_range ⟨st, st + sz⟩ = false) := by
  obtain ⟨hks, hchain, hent⟩ := hwf
  unfold MemorySet.unmap AddrRange.try_from_start_size checkedAdd at h
  by_cases hW : st + sz < W
  swap
  · rw [if_neg hW] at h
    exact absurd h (by simp)
  rw [if_pos hW] at h
  dsimp only at h
  by_cases hsz : sz = 0
  · subst hsz
    rw [if_pos (by simp [AddrRange.isEmpty])] at h
    injection h with h2
    injection h2 with hA hB
    rw [← hA]
    exact ⟨⟨hks, hchain, hent⟩, fun hc => absurd hc (by omega)⟩
  have hsz' : 0 < sz := Nat.pos_of_ne_zero hsz
  rw [if_neg (by simp [AddrRange.isEmpty]; omega)] at h
  rcases hp1 : MemorySet.unmapPhase1 ⟨st, st + sz⟩ pt s.areas
    with ⟨l1, pt1⟩ | ⟨e1, x⟩ | _ <;> rw [hp1] at h
  rotate_left
  · exact absurd h (by simp)
  · exact absurd h (by simp)
  dsimp only at h
  have hfil := unmapPhase1_ok_inv hp1
  have hsub : l1.Sublist s.areas := by rw [hfil]; exact List.filter_sublist _
  have hks1 := List.Pairwise.sublist hsub hks
  have hch1 := List.Pairwise.sublist hsub hchain
  have hent1 : ∀ p ∈ l1, EntryWF p := fun p hp => hent p (hsub.mem hp)
  have hP2 : ∀ p ∈ l1,
      ¬(st ≤ p.2.va_range.start ∧ p.2.va_range.stop ≤ st + sz) := by
    intro p hp
    rw [hfil] at hp
    have hc := (List.mem_filter.mp hp).2
    simp only [Bool.not_eq_true', AddrRange.contained_in,
      Bool.and_eq_false_iff, decide_eq_false_iff_not] at hc
    rcases hc with hc | hc <;> omega
  have hst' : st < st + sz := by omega
  rcases hbl : btLastLt st l1 with _ | b <;> rw [hbl] at h
  · have hP1 : ∀ p ∈ l1, p.1 < st → p.2.va_range.stop ≤ st := by
      intro p hp hlt
      exact absurd hlt (btLastLt_none hbl p hp)
    obtain ⟨hwf', hov⟩ := unmapPhase3_ok hst' hW hks1 hch1 hent1 hP1 hP2 h
    exact ⟨hwf', fun _ => hov⟩
  · simp only at h
    obtain ⟨hbmem, hblt⟩ := btLastLt_mem hbl
    obtain ⟨hkb, hnb, hwb⟩ := hent1 b hbmem
    have hBmax := btLastLt_max hks1 hbl
    by_cases hbs : b.2.stop > st
    swap
    · rw [if_neg hbs] at h
      simp only [MemoryArea.stop, not_lt] at hbs
      have hP1 : ∀ p ∈ l1, p.1 < st → p.2.va_range.stop ≤ st := by
        intro p hp hlt
        by_cases hpb : p = b
        · subst hpb; exact hbs
        · have hplt : p.1 < b.1 := lt_of_le_of_ne (hBmax p hp hlt)
            (fun hh => hpb (keys_inj hks1 hp hbmem hh))
          have hrel := pairwise_rel_of_keys hch1 hks1 hp hbmem hplt
          omega
      obtain ⟨hwf', hov⟩ := unmapPhase3_ok hst' hW hks1 hch1 hent1 hP1 hP2 h
      exact ⟨hwf', fun _ => hov⟩
    rw [if_pos hbs] at h
    simp only [MemoryArea.stop] at hbs
    have hP1out : ∀ p ∈ l1, p.1 ≠ b.1 → p.1 < st → p.2.va_range.stop ≤ st := by
      intro p hp hne hlt
      have hplt : p.1 < b.1 := lt_of_le_of_ne (hBmax p hp hlt)
        (fun hh => hne hh)
      have hrel := pairwise_rel_of_keys hch1 hks1 hp hbmem hplt
      omega
    by_cases hbe : b.2.stop ≤ st + sz
    · rw [if_pos hbe] at h
      simp only [MemoryArea.stop] at hbe
      rcases hsh : b.2.shrink_right (st - b.1) pt1
        with ⟨b', pt2⟩ | ⟨er, x⟩ | _ <;> rw [hsh] at h
      rotate_left
      · exact absurd h (by simp)
      · exact absurd h (by simp)
      obtain ⟨hg1, hg2, hb'⟩ := shrink_right_ok_inv hsh
      simp only [MemoryArea.size, AddrRange.size] at hg2
      have hbstop : b'.va_range.stop = st := by
        rw [hb']
        show wrapSub b.2.va_range.stop (b.2.size - (st - b.1)) = st
        simp only [MemoryArea.size, AddrRange.size]
        rw [wrapSub_eq (by omega) hwb]
        omega
      have hbstart : b'.va_range.start = b.2.va_range.start := by
        rw [hb']; rfl
      have hks2 := btSet_ksorted hks1 (k := b.1) (v := b')
      have hch2 : (btSet b.1 b' l1).Pairwise
          (fun p q => p.2.va_range.stop ≤ q.2.va_range.start) := by
        refine btSet_pairwise hch1 hks1 ?_ ?_
        · intro p hp hpk
          have hrel := pairwise_rel_of_keys hch1 hks1 hp hbmem hpk
          dsimp only
          rw [hbstart]
          exact hrel
        · intro p hp hpk
          have hrel := pairwise_rel_of_keys hch1 hks1 hbmem hp hpk
          dsimp only
          rw [hbstop]
          omega
      have hent2 : ∀ p ∈ btSet b.1 b' l1, EntryWF p := by
        intro p hp
        rcases btSet_mem hks1 hp with rfl | ⟨hp', _⟩
        · exact ⟨by dsimp only; rw [hbstart]; exact hkb,
            by dsimp only; rw [hbstart, hbstop]; omega,
            by dsimp only; rw [hbstop]; omega⟩
        · exact hent1 p hp'
      have hP1' : ∀ p ∈ btSet b.1 b' l1, p.1 < st →
          p.2.va_range.stop ≤ st := by
        intro p hp hlt
        rcases btSet_mem hks1 hp with rfl | ⟨hp', hne⟩
        · dsimp only; rw [hbstop]
        · exact hP1out p hp' hne hlt
      have hP2' : ∀ p ∈ btSet b.1 b' l1,
          ¬(st ≤ p.2.va_range.start ∧ p.2.va_range.stop ≤ st + sz) := by
        intro p hp
        rcases btSet_mem hks1 hp with rfl | ⟨hp', _⟩
        · dsimp only
          rw [hbstart]
          omega
        · exact hP2 p hp'
      obtain ⟨hwf', hov⟩ := unmapPhase3_ok hst' hW hks2 hch2 hent2 hP1' hP2' h
      exact ⟨hwf', fun _ => hov⟩
    · rw [if_neg hbe] at h
      simp only [MemoryArea.stop, not_le] at hbe
      rcases hsp : b.2.split (st + sz) with _ | ⟨bl, br⟩ <;> rw [hsp] at h
      · exact absurd h (by simp)
      simp only at h
      obtain ⟨hs1, hs2, hbl', hbr'⟩ := split_some_inv hsp
      simp only [MemoryArea.start, MemoryArea.stop] at hs1 hs2
      have hblr : bl.va_range = ⟨b.2.va_range.start, st + sz⟩ := by
        rw [hbl']
      have hbrstart : br.va_range.start = st + sz := by rw [hbr']
      have hbrstop : br.va_range.stop = b.2.va_range.stop := by
        rw [hbr']
        dsimp only [MemoryArea.stop]
        omega
      rcases hsh : bl.shrink_right (st - b.1) pt1
        with ⟨b', pt2⟩ | ⟨er, x⟩ | _ <;> rw [hsh] at h
      rotate_left
      · exact absurd h (by simp)
      · exact absurd h (by simp)
      obtain ⟨hg1, hg2, hb'⟩ := shrink_right_ok_inv hsh
      rw [show bl.size = st + sz - b.2.va_range.start from by
        simp only [MemoryArea.size, AddrRange.size, hblr]] at hg2
      have hbstop : b'.va_range.stop = st := by
        rw [hb']
        show wrapSub bl.va_range.stop (bl.size - (st - b.1)) = st
        rw [show bl.size = st + sz - b.2.va_range.start from by
          simp only [MemoryArea.size, AddrRange.size, hblr], hblr]
        dsimp only
        rw [wrapSub_eq (by omega) (by omega)]
        omega
      have hbstart : b'.va_range.start = b.2.va_range.start := by
        rw [hb']
        show bl.va_range.start = b.2.va_range.start
        rw [hblr]
      dsimp only at h
      rw [if_pos (show br.start = st + sz from hbrstart)] at h
      have hks2 := btSet_ksorted hks1 (k := b.1) (v := b')
      have hmem2 : ∀ p ∈ btSet b.1 b' l1,
          p = (b.1, b') ∨ (p ∈ l1 ∧ p.1 ≠ b.1) := fun p hp => btSet_mem hks1 hp
      have hch2 : (btSet b.1 b' l1).Pairwise
          (fun p q => p.2.va_range.stop ≤ q.2.va_range.start) := by
        refine btSet_pairwise hch1 hks1 ?_ ?_
        · intro p hp hpk
          have hrel := pairwise_rel_of_keys hch1 hks1 hp hbmem hpk
          dsimp only
          rw [hbstart]
          exact hrel
        · intro p hp hpk
          have hrel := pairwise_rel_of_keys hch1 hks1 hbmem hp hpk
          dsimp only
          rw [hbstop]
          omega
      have hent2 : ∀ p ∈ btSet b.1 b' l1, EntryWF p := by
        intro p hp
        rcases hmem2 p hp with rfl | ⟨hp', _⟩
        · exact ⟨by dsimp only; rw [hbstart]; exact hkb,
            by dsimp only; rw [hbstart, hbstop]; omega,
            by dsimp only; rw [hbstop]; omega⟩
        · exact hent1 p hp'
      have hkey_after : ∀ p ∈ l1, p.1 ≠ b.1 → st ≤ p.1 →
          b.2.va_range.stop ≤ p.2.va_range.start := by
        intro p hp hne hge
        have hplt : b.1 < p.1 := by omega
        exact pairwise_rel_of_keys hch1 hks1 hbmem hp hplt
      have hks3 := btInsert_ksorted hks2 (k := st + sz) (v := br)
      have hch3 : (btInsert (st + sz) br (btSet b.1 b' l1)).1.Pairwise
          (fun p q => p.2.va_range.stop ≤ q.2.va_range.start) := by
        refine btInsert_pairwise hch2 hks2 ?_ ?_
        · intro p hp hpk
          dsimp only
          rw [hbrstart]
          rcases hmem2 p hp with rfl | ⟨hp', hne⟩
          · dsimp only
            rw [hbstop]
            omega
          · obtain ⟨hkp, hnp, _⟩ := hent1 p hp'
            by_cases hpst : p.1 < st
            · have := hP1out p hp' hne hpst
              omega
            · have := hkey_after p hp' hne (by omega)
              omega
        · intro p hp hpk
          dsimp only
          rw [hbrstop]
          rcases hmem2 p hp with rfl | ⟨hp', hne⟩
          · omega
          · have := hkey_after p hp' hne (by omega)
            obtain ⟨hkp, hnp, _⟩ := hent1 p hp'
            omega
      have hent3 : ∀ p ∈ (btInsert (st + sz) br (btSet b.1 b' l1)).1,
          EntryWF p := by
        intro p hp
        rcases btInsert_mem hks2 hp with rfl | ⟨hp', _⟩
        · exact ⟨by dsimp only; rw [hbrstart],
            by dsimp only; rw [hbrstart, hbrstop]; omega,
            by dsimp only; rw [hbrstop]; omega⟩
        · exact hent2 p hp'
      have hP1' : ∀ p ∈ (btInsert (st + sz) br (btSet b.1 b' l1)).1,
          p.1 < st → p.2.va_range.stop ≤ st := by
        intro p hp hlt
        rcases btInsert_mem hks2 hp with rfl | ⟨hp', _⟩
        · dsimp only at hlt
          omega
        · rcases hmem2 p hp' with rfl | ⟨hp'', hne⟩
          · dsimp only
            rw [hbstop]
          · exact hP1out p hp'' hne hlt
      have hP2' : ∀ p ∈ (btInsert (st + sz) br (btSet b.1 b' l1)).1,
          ¬(st ≤ p.2.va_range.start ∧ p.2.va_range.stop ≤ st + sz) := by
        intro p hp
        rcases btInsert_mem hks2 hp with rfl | ⟨hp', _⟩
        · dsimp only
          rw [hbrstop]
          omega
        · rcases hmem2 p hp' with rfl | ⟨hp'', _⟩
          · dsimp only
            rw [hbstart]
            omega
          · exact hP2 p hp''
      obtain ⟨hwf', hov⟩ := unmapPhase3_ok hst' hW hks3 hch3 hent3 hP1' hP2' h
      exact ⟨hwf', fun _ => hov⟩

/-- Inserting a bounded area that overlaps no entry preserves the invariant
(core of `insert` and `map`). -/
theorem insert_area_wf {PT : Type} {l : List (Nat × MemoryArea PT)}
    {a : MemoryArea PT}
    (hks : l.Pairwise (fun p q => p.1 < q.1))
    (hchain : l.Pairwise (fun p q => p.2.va_range.stop ≤ q.2.va_range.start))
    (hent : ∀ p ∈ l, EntryWF p)
    (hnov : ∀ p ∈ l, AddrRange.overlapsR p.2.va_range a.va_range = false)
    (hne : a.va_range.start < a.va_range.stop) (hW : a.va_range.stop < W) :
    SetWF (⟨(btInsert a.start a l).1⟩ : MemorySet PT) := by
  refine ⟨btInsert_ksorted hks, ?_, ?_⟩
  · refine btInsert_pairwise hchain hks ?_ ?_
    · intro p hp hpk
      have hno := hnov p hp
      simp only [AddrRange.overlapsR, Bool.and_eq_false_iff,
        decide_eq_false_iff_not, not_lt] at hno
      obtain ⟨hkp, hnp, _⟩ := hent p hp
      simp only [MemoryArea.start] at hpk
      dsimp only
      rcases hno with hcase | hcase <;> omega
    · intro p hp hpk
      have hno := hnov p hp
      simp only [AddrRange.overlapsR, Bool.and_eq_false_iff,
        decide_eq_false_iff_not, not_lt] at hno
      obtain ⟨hkp, hnp, _⟩ := hent p hp
      simp only [MemoryArea.start] at hpk
      dsimp only
      rcases hno with hcase | hcase <;> omega
  · intro p hp
    rcases btInsert_mem hks hp with rfl | ⟨hp', _⟩
    · exact ⟨rfl, hne, hW⟩
    · exact hent p hp'

/-- A successful `map` preserves the invariant. -/
theorem map_ok_wf {PT : Type} {s s' : MemorySet PT} {area : MemoryArea PT}
    {pt pt' : PT} {uo : Bool} {of : Option Nat}
    (hwf : SetWF s) (hle : area.va_range.start ≤ area.va_range.stop)
    (hW : area.va_range.stop < W)
    (h : s.map area pt uo of = .ok (s', pt')) : SetWF s' := by
  unfold MemorySet.map at h
  by_cases hne : area.va_range.isEmpty = true
  · rw [if_pos hne] at h
    exact absurd h (by simp)
  rw [Bool.not_eq_true] at hne
  rw [hne] at h
  simp only [Bool.false_eq_true, if_false] at h
  have hnonempty : area.va_range.start < area.va_range.stop := by
    simp only [AddrRange.isEmpty, beq_eq_false_iff_ne, ne_eq] at hne
    omega
  have hstep2 : ∀ (s1 : MemorySet PT) (pt1 : PT), SetWF s1 →
      (∀ p ∈ s1.areas, AddrRange.overlapsR p.2.va_range area.va_range = false) →
      (match area.map_area pt1 of with
        | Res.ok (a', pt2) =>
          match (btInsert a'.start a' s1.areas).2 with
          | none => Res.ok ((⟨(btInsert a'.start a' s1.areas).1⟩ : MemorySet PT), pt2)
          | some _ => Res.panicked
        | Res.err er (_, pt2) => Res.err er (s1, pt2)
        | Res.panicked => Res.panicked) = .ok (s', pt') → SetWF s' := by
    intro s1 pt1 hwf1 hnov1 hh
    obtain ⟨hks1, hch1, hent1⟩ := hwf1
    rcases hm : area.map_area pt1 of with ⟨a', pt2⟩ | ⟨er, x⟩ | _ <;>
      rw [hm] at hh
    rotate_left
    · exact absurd hh (by simp)
    · exact absurd hh (by simp)
    dsimp only at hh
    obtain ⟨fr, hmf, ha'⟩ := map_area_ok_inv hm
    have hrange : a'.va_range = area.va_range := by rw [ha']
    have hstart : a'.start = area.start := by rw [ha']; rfl
    rcases hins : (btInsert a'.start a' s1.areas).2 with _ | old <;>
      rw [hins] at hh
    · simp only at hh
      injection hh with hh2
      injection hh2 with hA hB
      rw [← hA]
      have := insert_area_wf (a := a') hks1 hch1 hent1
        (by intro p hp; rw [hrange]; exact hnov1 p hp)
        (by rw [hrange]; exact hnonempty) (by rw [hrange]; exact hW)
      exact this
    · exact absurd hh (by simp)
  by_cases hov : s.overlaps area.va_range = true
  · rw [if_pos hov] at h
    cases uo with
    | false =>
      simp only [Bool.false_eq_true, if_false] at h
      exact absurd h (by simp)
    | true =>
      simp only [if_true] at h
      rcases hu : s.unmap area.start area.size pt
        with ⟨s1, pt1⟩ | ⟨er, x⟩ | _ <;> rw [hu] at h
      rotate_left
      · exact absurd h (by simp)
      · exact absurd h (by simp)
      obtain ⟨hwf1, hclear⟩ := unmap_ok hwf hu
      have hszpos : 0 < area.size := by
        simp only [MemoryArea.size, AddrRange.size]
        omega
      have hr : (⟨area.start, area.start + area.size⟩ : AddrRange) =
          area.va_range := by
        simp only [MemoryArea.start, MemoryArea.size, AddrRange.size]
        have : area.va_range.start + (area.va_range.stop - area.va_range.start)
            = area.va_range.stop := by omega
        rw [this]
      refine hstep2 s1 pt1 hwf1 ?_ h
      intro p hp
      have := hclear hszpos p hp
      rw [hr] at this
      exact this
  · rw [Bool.not_eq_true] at hov
    rw [hov] at h
    simp only [Bool.false_eq_true, if_false] at h
    refine hstep2 s pt hwf ?_ h
    intro p hp
    have := (overlaps_eq_false_iff ⟨hwf.1, hwf.2.1, hwf.2.2⟩ area.va_range).mp hov p hp
    exact this

/-- A successful restricted `adjust_area` (start kept fixed, new range free of
the other areas) preserves the invariant. -/
theorem adjust_ok_wf {PT : Type} {s s' : MemorySet PT} {addr e : Nat}
    {pt pt' : PT} {area : MemoryArea PT}
    (hwf : SetWF s) (hget : btGet addr s.areas = some area) (heW : e < W)
    (hnov : ∀ p ∈ s.areas, p.1 ≠ addr →
      AddrRange.overlapsR ⟨area.start, e⟩ p.2.va_range = false)
    (h : s.adjust_area addr area.start e pt = .ok (s', pt')) : SetWF s' := by
  obtain ⟨hks, hchain, hent⟩ := hwf
  have hmem : (addr, area) ∈ s.areas := btGet_mem hget
  obtain ⟨hkey, hnea, hWa⟩ := hent (addr, area) hmem
  simp only at hkey hnea hWa
  unfold MemorySet.adjust_area at h
  rw [hget] at h
  simp only at h
  by_cases hal : (aligned4k area.start && aligned4k e) = true
  swap
  · rw [Bool.not_eq_true] at hal
    rw [hal] at h
    exact absurd h (by simp)
  rw [hal] at h
  simp only [if_true] at h
  by_cases hse : area.start ≥ e
  · rw [if_pos hse] at h
    exact absurd h (by simp)
  rw [if_neg hse] at h
  push_neg at hse
  rw [if_neg (by intro hc; exact hc rfl)] at h
  dsimp only at h
  have hfinish : ∀ (a2 : MemoryArea PT) (pt2 : PT),
      a2.va_range = ⟨area.va_range.start, e⟩ →
      Res.ok ((⟨btSet addr a2 s.areas⟩ : MemorySet PT), pt2) = .ok (s', pt') →
      SetWF s' := by
    intro a2 pt2 hr2 hh
    injection hh with hh2
    injection hh2 with hA hB
    rw [← hA]
    refine ⟨btSet_ksorted hks, ?_, ?_⟩
    · refine btSet_pairwise hchain hks ?_ ?_
      · intro p hp hpk
        have hrel := pairwise_rel_of_keys hchain hks hp hmem hpk
        dsimp only
        rw [hr2]
        simp only at hrel
        exact hrel
      · intro p hp hpk
        have hno := hnov p hp (by omega)
        simp only [AddrRange.overlapsR, Bool.and_eq_false_iff,
          decide_eq_false_iff_not, not_lt, MemoryArea.start] at hno
        obtain ⟨hkp, hnp, _⟩ := hent p hp
        dsimp only
        rw [hr2]
        show e ≤ p.2.va_range.start
        rcases hno with hcase | hcase <;> omega
    · intro p hp
      rcases btSet_mem hks hp with rfl | ⟨hp', _⟩
      · exact ⟨by dsimp only; rw [hr2]; exact hkey,
          by dsimp only; rw [hr2]; simpa using hse,
          by dsimp only; rw [hr2]; exact heW⟩
      · exact hent p hp'
  by_cases hee : e ≠ area.stop
  · rw [if_pos hee] at h
    simp only [MemoryArea.stop] at hee
    by_cases hgt : e > area.stop
    · rw [if_pos hgt] at h
      simp only [MemoryArea.stop] at hgt
      rcases hx : area.extend_right (e - area.start) pt
        with ⟨a2, pt2⟩ | ⟨er, x⟩ | _ <;> rw [hx] at h
      rotate_left
      · exact absurd h (by simp)
      · exact absurd h (by simp)
      obtain ⟨hn, fr, hmf, ha2⟩ := extend_right_ok_inv hx
      refine hfinish a2 pt2 ?_ h
      rw [ha2]
      simp only
      congr 1
      have hsz : area.size = area.va_range.stop - area.va_range.start := rfl
      have hst : area.start = area.va_range.start := rfl
      rw [wrapAdd_eq (by omega)]
      omega
    · rw [if_neg hgt] at h
      simp only [MemoryArea.stop, not_lt] at hgt
      rcases hx : area.shrink_right (e - area.start) pt
        with ⟨a2, pt2⟩ | ⟨er, x⟩ | _ <;> rw [hx] at h
      rotate_left
      · exact absurd h (by simp)
      · exact absurd h (by simp)
      obtain ⟨hg1, hg2, ha2⟩ := shrink_right_ok_inv hx
      refine hfinish a2 pt2 ?_ h
      rw [ha2]
      show (⟨area.va_range.start,
        wrapSub area.va_range.stop (area.size - (e - area.start))⟩ : AddrRange)
        = ⟨area.va_range.start, e⟩
      have hsz : area.size = area.va_range.stop - area.va_range.start := rfl
      have hst : area.start = area.va_range.start := rfl
      congr 1
      rw [wrapSub_eq (by omega) hWa]
      omega
  · rw [if_neg hee] at h
    simp only [MemoryArea.stop, not_not] at hee
    refine hfinish area pt ?_ h
    rw [hee]

theorem protect_area_ok_inv {PT : Type} {a a' : MemoryArea PT} {nf : Nat}
    {pt pt' : PT} (h : a.protect_area nf pt = .ok (a', pt')) : a' = a := by
  unfold MemoryArea.protect_area at h
  injection h with h2
  injection h2 with hA hB
  exact hA.symm

theorem disjAll_of_chain {PT : Type} {l : List (Nat × MemoryArea PT)}
    (hks : l.Pairwise (fun p q => p.1 < q.1))
    (hch : l.Pairwise (fun p q => p.2.va_range.stop ≤ q.2.va_range.start)) :
    ∀ p ∈ l, ∀ q ∈ l, p.1 ≠ q.1 → Disj p q ∨ Disj q p := by
  intro p hp q hq hne
  rcases Nat.lt_or_ge p.1 q.1 with h | h
  · exact Or.inl (pairwise_rel_of_keys hch hks hp hq h)
  · have h' : q.1 < p.1 := by omega
    exact Or.inr (pairwise_rel_of_keys hch hks hq hp h')

/-- One cons-step of the `protectLoop` invariant: the head entry is replaced
in place by `hd` and contributes the staged fragments `frs`, all inside the
original head area; the tail contributes via the induction hypothesis. -/
theorem protect_cons_step {PT : Type} (k : Nat) (area : MemoryArea PT)
    (rest l2 ins2 : List (Nat × MemoryArea PT)) (hd : Nat × MemoryArea PT)
    (frs : List (Nat × MemoryArea PT))
    (hchainhead : ∀ q ∈ rest, area.va_range.stop ≤ q.2.va_range.start)
    (ihA : l2.map Prod.fst = rest.map Prod.fst)
    (ihF : ∀ p ∈ l2 ++ ins2, EntryWF p ∧ ∃ q ∈ rest, RangeSub p q)
    (ihD : ∀ p ∈ l2 ++ ins2, ∀ q ∈ l2 ++ ins2, p.1 ≠ q.1 → Disj p q ∨ Disj q p)
    (hhdk : hd.1 = k)
    (hhd : EntryWF hd) (hhds : RangeSub hd (k, area))
    (hfrs : ∀ p ∈ frs, EntryWF p ∧ RangeSub p (k, area))
    (hdisjH : ∀ p ∈ hd :: frs, ∀ q ∈ hd :: frs, p.1 ≠ q.1 →
      Disj p q ∨ Disj q p) :
    ((hd :: l2).map Prod.fst = ((k, area) :: rest).map Prod.fst) ∧
    (∀ p ∈ (hd :: l2) ++ (frs ++ ins2), EntryWF p ∧
      ∃ q ∈ (k, area) :: rest, RangeSub p q) ∧
    (∀ p ∈ (hd :: l2) ++ (frs ++ ins2), ∀ q ∈ (hd :: l2) ++ (frs ++ ins2),
      p.1 ≠ q.1 → Disj p q ∨ Disj q p) := by
  have hmem : ∀ p : Nat × MemoryArea PT, p ∈ (hd :: l2) ++ (frs ++ ins2) →
      p ∈ hd :: frs ∨ p ∈ l2 ++ ins2 := by
    intro p hp
    simp only [List.mem_append, List.mem_cons] at hp ⊢
    tauto
  refine ⟨?_, ?_, ?_⟩
  · simp only [List.map_cons, ihA, hhdk]
  · intro p hp
    rcases hmem p hp with hph | hpt
    · rcases List.mem_cons.mp hph with rfl | hpf
      · exact ⟨hhd, (k, area), List.mem_cons_self _ _, hhds⟩
      · obtain ⟨h1, h2⟩ := hfrs p hpf
        exact ⟨h1, (k, area), List.mem_cons_self _ _, h2⟩
    · obtain ⟨h1, Q, hQ, h2⟩ := ihF p hpt
      exact ⟨h1, Q, List.mem_cons_of_mem _ hQ, h2⟩
  · intro p hp q hq hne
    rcases hmem p hp with hph | hpt <;> rcases hmem q hq with hqh | hqt
    · exact hdisjH p hph q hqh hne
    · have hps : RangeSub p (k, area) := by
        rcases List.mem_cons.mp hph with rfl | hpf
        · exact hhds
        · exact (hfrs p hpf).2
      obtain ⟨_, Q, hQ, hqs⟩ := ihF q hqt
      exact Or.inl (le_trans hps.2 (le_trans (hchainhead Q hQ) hqs.1))
    · have hqs : RangeSub q (k, area) := by
        rcases List.mem_cons.mp hqh with rfl | hqf
        · exact hhds
        · exact (hfrs q hqf).2
      obtain ⟨_, Q, hQ, hps⟩ := ihF p hpt
      exact Or.inr (le_trans hqs.2 (le_trans (hchainhead Q hQ) hps.1))
    · exact ihD p hpt q hqt hne

/-- The `protectLoop` invariant: a successful pass keeps the key sequence of
the in-place list, and every produced entry (in place or staged) is
well-formed, contained in one of the input areas, and pairwise disjoint. -/
theorem protectLoop_ok_inv {PT : Type} {f : Nat → Option Nat} {st e : Nat} :
    ∀ {l : List (Nat × MemoryArea PT)} {pt : PT}
      {l' ins : List (Nat × MemoryArea PT)} {pt' : PT},
    l.Pairwise (fun p q => p.1 < q.1) →
    l.Pairwise (fun p q => p.2.va_range.stop ≤ q.2.va_range.start) →
    (∀ p ∈ l, EntryWF p) →
    MemorySet.protectLoop f st e pt l = .ok (l', ins, pt') →
    l'.map Prod.fst = l.map Prod.fst ∧
    (∀ p ∈ l' ++ ins, EntryWF p ∧ ∃ q ∈ l, RangeSub p q) ∧
    (∀ p ∈ l' ++ ins, ∀ q ∈ l' ++ ins, p.1 ≠ q.1 → Disj p q ∨ Disj q p) := by
  intro l
  induction l with
  | nil =>
    intro pt l' ins pt' _ _ _ h
    simp only [MemorySet.protectLoop] at h
    injection h with h2
    injection h2 with hA h3
    injection h3 with hB hC
    subst hA
    subst hB
    exact ⟨rfl, fun p hp => absurd hp (by simp),
      fun p hp => absurd hp (by simp)⟩
  | cons hdp rest ih =>
    obtain ⟨k, area⟩ := hdp
    intro pt l' ins pt' hks hch hent h
    obtain ⟨hkshead, hkstail⟩ := List.pairwise_cons.mp hks
    obtain ⟨hchhead, hchtail⟩ := List.pairwise_cons.mp hch
    have henthead := hent (k, area) (List.mem_cons_self _ _)
    have henttail : ∀ p ∈ rest, EntryWF p :=
      fun p hp => hent p (List.mem_cons_of_mem _ hp)
    obtain ⟨hkey, hnea, hWa⟩ := henthead
    simp only at hkey hnea hWa
    have henthead2 : EntryWF (k, area) := ⟨hkey, hnea, hWa⟩
    simp only [MemorySet.protectLoop] at h
    rcases hf : f area.flags with _ | nf <;> rw [hf] at h
    · dsimp only at h
      rcases hr : MemorySet.protectLoop f st e pt rest
        with ⟨l2, ins2, pt2⟩ | ⟨er, x⟩ | _ <;> rw [hr] at h <;> dsimp only at h
      rotate_left
      · exact absurd h (by simp)
      · exact absurd h (by simp)
      injection h with h2
      injection h2 with hA h3
      injection h3 with hB hC
      subst hA
      subst hB
      obtain ⟨ihA, ihF, ihD⟩ := ih hkstail hchtail henttail hr
      exact protect_cons_step k area rest l2 ins2 (k, area) [] hchhead ihA ihF
        ihD rfl henthead2 ⟨le_refl _, le_refl _⟩
        (fun p hp => absurd hp (by simp))
        (fun p hp q hq hne => by
          simp only [List.mem_singleton] at hp hq
          subst hp
          subst hq
          exact absurd rfl hne)
    · dsimp only at h
      by_cases h1 : k ≥ e
      · rw [if_pos h1] at h
        injection h with h2
        injection h2 with hA h3
        injection h3 with hB hC
        subst hA
        subst hB
        refine ⟨rfl, ?_, ?_⟩
        · intro p hp
          rw [List.append_nil] at hp
          exact ⟨hent p hp, p, hp, le_refl _, le_refl _⟩
        · intro p hp q hq hne
          rw [List.append_nil] at hp hq
          exact disjAll_of_chain hks hch p hp q hq hne
      rw [if_neg h1] at h
      by_cases h2c : area.stop ≤ st
      · rw [if_pos h2c] at h
        rcases hr : MemorySet.protectLoop f st e pt rest
          with ⟨l2, ins2, pt2⟩ | ⟨er, x⟩ | _ <;> rw [hr] at h <;> dsimp only at h
        rotate_left
        · exact absurd h (by simp)
        · exact absurd h (by simp)
        injection h with h2
        injection h2 with hA h3
        injection h3 with hB hC
        subst hA
        subst hB
        obtain ⟨ihA, ihF, ihD⟩ := ih hkstail hchtail henttail hr
        exact protect_cons_step k area rest l2 ins2 (k, area) [] hchhead ihA ihF
          ihD rfl henthead2 ⟨le_refl _, le_refl _⟩
          (fun p hp => absurd hp (by simp))
          (fun p hp q hq hne => by
            simp only [List.mem_singleton] at hp hq
            subst hp
            subst hq
            exact absurd rfl hne)
      rw [if_neg h2c] at h
      by_cases h3c : k ≥ st ∧ area.stop ≤ e
      · rw [if_pos h3c] at h
        rcases hpa : area.protect_area nf pt with ⟨a1, pt1⟩ | ⟨er, x⟩ | _ <;>
          rw [hpa] at h <;> dsimp only at h
        rotate_left
        · exact absurd h (by simp)
        · exact absurd h (by simp)
        have ha1 : a1 = area := protect_area_ok_inv hpa
        rw [ha1] at h
        rcases hr : MemorySet.protectLoop f st e pt1 rest
          with ⟨l2, ins2, pt2⟩ | ⟨er, x⟩ | _ <;> rw [hr] at h <;> dsimp only at h
        rotate_left
        · exact absurd h (by simp)
        · exact absurd h (by simp)
        injection h with h2
        injection h2 with hA h3
        injection h3 with hB hC
        subst hA
        subst hB
        obtain ⟨ihA, ihF, ihD⟩ := ih hkstail hchtail henttail hr
        exact protect_cons_step k area rest l2 ins2 (k, area.set_flags nf) []
          hchhead ihA ihF ihD rfl henthead2 ⟨le_refl _, le_refl _⟩
          (fun p hp => absurd hp (by simp))
          (fun p hp q hq hne => by
            simp only [List.mem_singleton] at hp hq
            subst hp
            subst hq
            exact absurd rfl hne)
      rw [if_neg h3c] at h
      by_cases h4c : k < st ∧ area.stop > e
      · rw [if_pos h4c] at h
        rcases hs1 : area.split e with _ | ⟨aL, right⟩ <;> rw [hs1] at h <;>
          dsimp only at h
        · exact absurd h (by simp)
        obtain ⟨hq1, hq2, haL, hright⟩ := split_some_inv hs1
        simp only [MemoryArea.start, MemoryArea.stop] at hq1 hq2
        rcases hs2 : aL.split st with _ | ⟨aLL, middle0⟩ <;> rw [hs2] at h <;>
          dsimp only at h
        · exact absurd h (by simp)
        obtain ⟨hq3, hq4, haLL, hmid0⟩ := split_some_inv hs2
        rw [haL] at hq3 hq4
        simp only [MemoryArea.start, MemoryArea.stop] at hq3 hq4
        rcases hpa : middle0.protect_area nf pt with ⟨m1, pt1⟩ | ⟨er, x⟩ | _ <;>
          rw [hpa] at h <;> dsimp only at h
        rotate_left
        · exact absurd h (by simp)
        · exact absurd h (by simp)
        have hm1 : m1 = middle0 := protect_area_ok_inv hpa
        rw [hm1] at h
        rcases hr : MemorySet.protectLoop f st e pt1 rest
          with ⟨l2, ins2, pt2⟩ | ⟨er, x⟩ | _ <;> rw [hr] at h <;> dsimp only at h
        rotate_left
        · exact absurd h (by simp)
        · exact absurd h (by simp)
        injection h with h2
        injection h2 with hA h3
        injection h3 with hB hC
        subst hA
        subst hB
        obtain ⟨ihA, ihF, ihD⟩ := ih hkstail hchtail henttail hr
        have hva : aLL.va_range = ⟨area.va_range.start, st⟩ := by
          rw [haLL, haL]
        have hvr : right.va_range = ⟨e, e + (area.va_range.stop - e)⟩ := by
          rw [hright]
          rfl
        have hvm : (middle0.set_flags nf).va_range = ⟨st, st + (e - st)⟩ := by
          simp only [MemoryArea.set_flags]
          rw [hmid0, haL]
          rfl
        refine protect_cons_step k area rest l2 ins2 (k, aLL)
          [(right.start, right), ((middle0.set_flags nf).start,
            middle0.set_flags nf)]
          hchhead ihA ihF ihD rfl ?_ ?_ ?_ ?_
        · refine ⟨?_, ?_, ?_⟩ <;> simp only [hva] <;> omega
        · exact ⟨by simp only [hva]; omega, by simp only [hva]; omega⟩
        · intro p hp
          simp only [List.mem_cons, List.mem_singleton,
            List.not_mem_nil, or_false] at hp
          rcases hp with rfl | rfl
          · refine ⟨⟨?_, ?_, ?_⟩, ?_, ?_⟩ <;>
              simp only [MemoryArea.start, hvr] <;> omega
          · refine ⟨⟨?_, ?_, ?_⟩, ?_, ?_⟩ <;>
              simp only [MemoryArea.start, hvm] <;> omega
        · intro p hp q hq hne
          simp only [List.mem_cons, List.not_mem_nil, or_false] at hp hq
          rcases hp with rfl | rfl | rfl <;> rcases hq with rfl | rfl | rfl <;>
            first
              | exact absurd rfl hne
              | (refine Or.inl ?_
                 simp only [Disj, MemoryArea.start, hva, hvr, hvm]
                 omega)
              | (refine Or.inr ?_
                 simp only [Disj, MemoryArea.start, hva, hvr, hvm]
                 omega)
      rw [if_neg h4c] at h
      by_cases h5c : area.stop > e
      · rw [if_pos h5c] at h
        simp only [MemoryArea.stop] at h5c
        rcases hs1 : area.split e with _ | ⟨aL, right⟩ <;> rw [hs1] at h <;>
          dsimp only at h
        · exact absurd h (by simp)
        obtain ⟨hq1, hq2, haL, hright⟩ := split_some_inv hs1
        simp only [MemoryArea.start, MemoryArea.stop] at hq1 hq2
        rcases hpa : aL.protect_area nf pt with ⟨a1, pt1⟩ | ⟨er, x⟩ | _ <;>
          rw [hpa] at h <;> dsimp only at h
        rotate_left
        · exact absurd h (by simp)
        · exact absurd h (by simp)
        have ha1 : a1 = aL := protect_area_ok_inv hpa
        rw [ha1] at h
        rcases hr : MemorySet.protectLoop f st e pt1 rest
          with ⟨l2, ins2, pt2⟩ | ⟨er, x⟩ | _ <;> rw [hr] at h <;> dsimp only at h
        rotate_left
        · exact absurd h (by simp)
        · exact absurd h (by simp)
        injection h with h2
        injection h2 with hA h3
        injection h3 with hB hC
        subst hA
        subst hB
        obtain ⟨ihA, ihF, ihD⟩ := ih hkstail hchtail henttail hr
        have hva : (aL.set_flags nf).va_range = ⟨area.va_range.start, e⟩ := by
          simp only [MemoryArea.set_flags]
          rw [haL]
        have hvr : right.va_range = ⟨e, e + (area.va_range.stop - e)⟩ := by
          rw [hright]
          rfl
        refine protect_cons_step k area rest l2 ins2 (k, aL.set_flags nf)
          [(right.start, right)] hchhead ihA ihF ihD rfl ?_ ?_ ?_ ?_
        · refine ⟨?_, ?_, ?_⟩ <;> simp only [hva] <;> omega
        · exact ⟨by simp only [hva]; omega, by simp only [hva]; omega⟩
        · intro p hp
          simp only [List.mem_singleton] at hp
          subst hp
          refine ⟨⟨?_, ?_, ?_⟩, ?_, ?_⟩ <;>
            simp only [MemoryArea.start, hvr] <;> omega
        · intro p hp q hq hne
          simp only [List.mem_cons, List.not_mem_nil, or_false] at hp hq
          rcases hp with rfl | rfl <;> rcases hq with rfl | rfl <;>
            first
              | exact absurd rfl hne
              | (refine Or.inl ?_
                 simp only [Disj, MemoryArea.start, hva, hvr]
                 omega)
              | (refine Or.inr ?_
                 simp only [Disj, MemoryArea.start, hva, hvr]
                 omega)
      rw [if_neg h5c] at h
      simp only [MemoryArea.stop, not_lt] at h5c
      rcases hs1 : area.split st with _ | ⟨aL, right0⟩ <;> rw [hs1] at h <;>
        dsimp only at h
      · exact absurd h (by simp)
      obtain ⟨hq1, hq2, haL, hright⟩ := split_some_inv hs1
      simp only [MemoryArea.start, MemoryArea.stop] at hq1 hq2
      rcases hpa : right0.protect_area nf pt with ⟨r1, pt1⟩ | ⟨er, x⟩ | _ <;>
        rw [hpa] at h <;> dsimp only at h
      rotate_left
      · exact absurd h (by simp)
      · exact absurd h (by simp)
      have hr1 : r1 = right0 := protect_area_ok_inv hpa
      rw [hr1] at h
      rcases hr : MemorySet.protectLoop f st e pt1 rest
        with ⟨l2, ins2, pt2⟩ | ⟨er, x⟩ | _ <;> rw [hr] at h <;> dsimp only at h
      rotate_left
      · exact absurd h (by simp)
      · exact absurd h (by simp)
      injection h with h2
      injection h2 with hA h3
      injection h3 with hB hC
      subst hA
      subst hB
      obtain ⟨ihA, ihF, ihD⟩ := ih hkstail hchtail henttail hr
      have hva : aL.va_range = ⟨area.va_range.start, st⟩ := by
        rw [haL]
      have hvr : (right0.set_flags nf).va_range =
          ⟨st, st + (area.va_range.stop - st)⟩ := by
        simp only [MemoryArea.set_flags]
        rw [hright]
        rfl
      refine protect_cons_step k area rest l2 ins2 (k, aL)
        [((right0.set_flags nf).start, right0.set_flags nf)]
        hchhead ihA ihF ihD rfl ?_ ?_ ?_ ?_
      · refine ⟨?_, ?_, ?_⟩ <;> simp only [hva] <;> omega
      · exact ⟨by simp only [hva]; omega, by simp only [hva]; omega⟩
      · intro p hp
        simp only [List.mem_singleton] at hp
        subst hp
        refine ⟨⟨?_, ?_, ?_⟩, ?_, ?_⟩ <;>
          simp only [MemoryArea.start, hvr] <;> omega
      · intro p hp q hq hne
        simp only [List.mem_cons, List.not_mem_nil, or_false] at hp hq
        rcases hp with rfl | rfl <;> rcases hq with rfl | rfl <;>
          first
            | exact absurd rfl hne
            | (refine Or.inl ?_
               simp only [Disj, MemoryArea.start, hva, hvr]
               omega)
            | (refine Or.inr ?_
               simp only [Disj, MemoryArea.start, hva, hvr]
               omega)

/-- A successful `protect` preserves the invariant. -/
theorem protect_ok_wf {PT : Type} {s s' : MemorySet PT} {st sz : Nat}
    {f : Nat → Option Nat} {pt pt' : PT}
    (hwf : SetWF s) (h : s.protect st sz f pt = .ok (s', pt')) : SetWF s' := by
  obtain ⟨hks, hch, hent⟩ := hwf
  unfold MemorySet.protect at h
  rcases hca : checkedAdd st sz with _ | e <;> rw [hca] at h
  · exact absurd h (by simp)
  dsimp only at h
  rcases hpl : MemorySet.protectLoop f st e pt s.areas
    with ⟨l2, ins2, pt2⟩ | ⟨er, x⟩ | _ <;> rw [hpl] at h <;> dsimp only at h
  rotate_left
  · exact absurd h (by simp)
  · exact absurd h (by simp)
  injection h with h2
  injection h2 with hA hB
  rw [← hA]
  obtain ⟨ihA, ihF, ihD⟩ := protectLoop_ok_inv hks hch hent hpl
  have hk1 : (s.areas.map Prod.fst).Pairwise (fun a b => a < b) :=
    List.pairwise_map.mpr hks
  have hk2 : (l2.map Prod.fst).Pairwise (fun a b => a < b) := by
    rw [ihA]
    exact hk1
  have hks2 : l2.Pairwise (fun p q => p.1 < q.1) := List.pairwise_map.mp hk2
  have hentAll : ∀ p ∈ btExtend l2 ins2, EntryWF p := by
    intro p hp
    rcases btExtend_mem_fwd hp with h' | h'
    · exact (ihF p (List.mem_append.mpr (Or.inl h'))).1
    · exact (ihF p (List.mem_append.mpr (Or.inr h'))).1
  refine ⟨btExtend_ksorted hks2, ?_, hentAll⟩
  refine chain_of_disjAll (btExtend_ksorted hks2) hentAll ?_
  intro p hp q hq hne
  have hp' : p ∈ l2 ++ ins2 := by
    rcases btExtend_mem_fwd hp with h' | h' <;> simp [h']
  have hq' : q ∈ l2 ++ ins2 := by
    rcases btExtend_mem_fwd hq with h' | h' <;> simp [h']
  exact ihD p hp' q hq' hne

/-- C4 (amended): after any sequence of successful public mutations starting
from the empty set — with `insert(_, unmap_overlap := true)` only applied to
non-overlapping areas, inserted and mapped areas bounded by `usize`, and
`adjust_area` keeping the start fixed with a target range free of the other
areas — the area map has strictly sorted keys each equal to its area's start,
pairwise non-overlapping areas (`prev.end ≤ next.start`), and only non-empty
areas. -/
theorem set_invariants_reachable {PT : Type} {s : MemorySet PT}
    (h : Reaches s) : SetWF s := by
  induction h with
  | empty =>
    exact ⟨List.Pairwise.nil, List.Pairwise.nil,
      fun p hp => absurd hp (by simp [MemorySet.new])⟩
  | insert_ s area uo s' hr hle hW huo hok ih => exact insert_wf ih hle hW huo hok
  | map_ s area pt pt' uo of s' hr hle hW hok ih => exact map_ok_wf ih hle hW hok
  | unmap_ s st sz pt pt' s' hr hok ih => exact (unmap_ok ih hok).1
  | protect_ s st sz f pt pt' s' hr hok ih => exact protect_ok_wf ih hok
  | adjust_ s aa e pt pt' area s' hr hget heW hnov hok ih =>
    exact adjust_ok_wf ih hget heW hnov hok
  | clear_ s pt pt' s' hr hok ih =>
    rw [clear_ok_inv hok]
    exact ⟨List.Pairwise.nil, List.Pairwise.nil, fun p hp => absurd hp (by simp)⟩
  | delete_ s va hr ih => exact delete_wf ih va

/-- Witness: the invariant theorem applied to a concrete reachable set — the
empty set followed by a successful `insert` of `[0x1000, 0x3000)`. -/
theorem set_invariants_reachable_witness :
    SetWF (⟨[(0x1000, MemoryArea.new 0x1000 0x2000 none 3 noopBackend)]⟩ :
      MemorySet Unit) :=
  set_invariants_reachable
    (Reaches.insert_ MemorySet.new
      (MemoryArea.new 0x1000 0x2000 none 3 noopBackend) false
      ⟨[(0x1000, MemoryArea.new 0x1000 0x2000 none 3 noopBackend)]⟩
      Reaches.empty
      (by norm_num [MemoryArea.new, AddrRange.from_start_size, wrapAdd, W])
      (by norm_num [MemoryArea.new, AddrRange.from_start_size, wrapAdd, W])
      (by intro hc; exact absurd hc (by simp))
      rfl)

/-- C4 counterexample (unamended claim): from the empty set, a successful
`insert` of `[0x1000, 0x3000)` followed by a successful
`insert(_, unmap_overlap := true)` of the overlapping `[0x2000, 0x4000)`
yields a map whose two areas overlap: the code never unmaps or checks
overlaps when `unmap_overlap` is true, so a sequence of successful public
mutations escapes the claimed invariant. -/
theorem insert_unmap_overlap_breaks_invariant :
    (MemorySet.new : MemorySet Unit).insert
      (MemoryArea.new 0x1000 0x2000 none 3 noopBackend) false =
      .ok ⟨[(0x1000, MemoryArea.new 0x1000 0x2000 none 3 noopBackend)]⟩ ∧
    (⟨[(0x1000, MemoryArea.new 0x1000 0x2000 none 3 noopBackend)]⟩ :
        MemorySet Unit).insert
      (MemoryArea.new 0x2000 0x2000 none 3 noopBackend) true =
      .ok ⟨[(0x1000, MemoryArea.new 0x1000 0x2000 none 3 noopBackend),
            (0x2000, MemoryArea.new 0x2000 0x2000 none 3 noopBackend)]⟩ ∧
    ¬ SetWF (⟨[(0x1000, MemoryArea.new 0x1000 0x2000 none 3 noopBackend),
               (0x2000, MemoryArea.new 0x2000 0x2000 none 3 noopBackend)]⟩ :
      MemorySet Unit) := by
  refine ⟨rfl, rfl, ?_⟩
  rintro ⟨-, hch, -⟩
  obtain ⟨hhead, -⟩ := List.pairwise_cons.mp hch
  have := hhead _ (List.mem_cons_self _ _)
  simp only [MemoryArea.new, AddrRange.from_start_size] at this
  norm_num [wrapAdd, W] at this

end MemSet